import Mathlib

/-!
Verification development for the Paranode device library.

The definitions below are a shallow embedding of the C++ sources:
  * `src/Paranode/Utils/ParanodeMessageQueue.cpp` (circular message queue),
  * the `ParanodeJsonBuilder` implementation (JSON text builder),
  * `src/Paranode/Socket/ParanodeSocket.cpp`, `src/Paranode/Connection/ParanodeConnection.cpp`
    and `src/Paranode.cpp` (socket, session gate, orchestrator send paths).

Machine integers are modelled as `Nat`/`Int`; `unsigned long` is 32 bits on the
ESP32/ESP8266 targets, so the `millis()` clock wraps modulo `2 ^ 32`.  Buffers are
`List Char`.  C character pointers cannot be null in the embedding, so `!ptr`
guards (never exercised by the library's own callers) are not represented.
-/

namespace Paranode

set_option maxRecDepth 4000

/-- `PARANODE_QUEUE_SIZE` (default configuration). -/
def QUEUE_SIZE : Nat := 20

/-- `PARANODE_MAX_MESSAGE_SIZE` (default configuration). -/
def MAX_MESSAGE_SIZE : Nat := 384

/-- `unsigned long` modulus on the 32-bit Arduino targets (`2 ^ 32`). -/
def ULONG_MOD : Nat := 4294967296

/-- `ULONG_MAX` as used by `removeExpired`. -/
def ULONG_MAX : Nat := ULONG_MOD - 1

/-- The NUL character used as C string terminator. -/
def NUL : Char := Char.ofNat 0

/-- `struct QueuedMessage` from `ParanodeMessageQueue.h`.  `data` holds the copied
payload bytes (the C array stores exactly `length` message bytes followed by a
terminator; we keep just the message bytes). -/
structure QueuedMessage where
  data : List Char
  length : Nat
  timestamp : Nat
  priority : Nat
  valid : Bool
deriving Repr, DecidableEq

/-- A slot whose contents are unobservable (the C++ constructor leaves `data`
uninitialised and only clears `valid`). -/
def emptySlot : QueuedMessage :=
  { data := [], length := 0, timestamp := 0, priority := 0, valid := false }

/-- `class ParanodeMessageQueue`: fixed array of `QUEUE_SIZE` slots plus
`_head`, `_tail`, `_count`.  `messages` always has length `QUEUE_SIZE`. -/
structure MessageQueue where
  messages : List QueuedMessage
  head : Nat
  tail : Nat
  count : Nat
deriving Repr, DecidableEq

/-- `ParanodeMessageQueue::nextIndex`. -/
def nextIndex (i : Nat) : Nat := (i + 1) % QUEUE_SIZE

/-- The default constructor: all slots invalid, indices and count zero. -/
def MessageQueue.init : MessageQueue :=
  { messages := List.replicate QUEUE_SIZE emptySlot, head := 0, tail := 0, count := 0 }

/-- `isEmpty`. -/
def MessageQueue.isEmpty (q : MessageQueue) : Bool := q.count == 0

/-- `isFull` (`_count >= PARANODE_QUEUE_SIZE`). -/
def MessageQueue.isFull (q : MessageQueue) : Bool := QUEUE_SIZE ≤ q.count

/-- The scan in `enqueue`'s full-queue branch: starting at `_tail`, walk
`_count` slots looking for the first one with `priority < 2`.  Returns its
index.  (The C++ loop breaks at the first hit.) -/
def findLowPriorityAux (msgs : List QueuedMessage) (idx : Nat) : Nat → Option Nat
  | 0 => none
  | fuel + 1 =>
    if (msgs.getD idx emptySlot).priority < 2 then some idx
    else findLowPriorityAux msgs (nextIndex idx) fuel

/-- `ParanodeMessageQueue::enqueue`.  `now` is the value `millis()` returns at
the call.  Returns the new queue and the `bool` result.  The `!message` null
check is not representable; `length` is the length of `message` as passed by
all callers (`strlen`). -/
def MessageQueue.enqueue (q : MessageQueue) (message : List Char) (priority : Nat)
    (now : Nat) : MessageQueue × Bool :=
  if message.length = 0 ∨ MAX_MESSAGE_SIZE ≤ message.length then (q, false)
  else
    let q1 :=
      if QUEUE_SIZE ≤ q.count then
        let q1 :=
          if 2 ≤ priority then
            match findLowPriorityAux q.messages q.tail q.count with
            | none => q
            | some j =>
              let msgs := q.messages.set j { q.messages.getD j emptySlot with valid := false }
              if j = q.tail then
                { q with messages := msgs, tail := nextIndex q.tail, count := q.count - 1 }
              else
                { q with messages := msgs }
          else q
        if QUEUE_SIZE ≤ q1.count then
          { q1 with tail := nextIndex q1.tail, count := q1.count - 1 }
        else q1
      else q
    let slot : QueuedMessage :=
      { data := message, length := message.length, timestamp := now,
        priority := priority, valid := true }
    ({ q1 with messages := q1.messages.set q1.head slot,
               head := nextIndex q1.head, count := q1.count + 1 }, true)

/-- The tombstone-skipping loop at the start of `dequeue`:
`while (!_messages[_tail].valid && !isEmpty()) { _tail = nextIndex(_tail); _count--; }`.
Returns the final `(_tail, _count)`.  Structural recursion on `count` mirrors the
loop, which decrements `_count` every iteration. -/
def skipInvalid (msgs : List QueuedMessage) (tail : Nat) : Nat → Nat × Nat
  | 0 => (tail, 0)
  | c + 1 =>
    if (msgs.getD tail emptySlot).valid then (tail, c + 1)
    else skipInvalid msgs (nextIndex tail) c

/-- The copied length `msg.length < bufferSize ? msg.length : bufferSize - 1`
shared by `dequeue` and `peek`. -/
def copyLenOf (m : QueuedMessage) (bufferSize : Nat) : Nat :=
  if m.length < bufferSize then m.length else bufferSize - 1

/-- `ParanodeMessageQueue::dequeue`.  Returns the new queue, the returned
length and the bytes copied into the caller's buffer (`buffer` itself is
represented by the copied bytes; the `!buffer` null check is not modelled). -/
def MessageQueue.dequeue (q : MessageQueue) (bufferSize : Nat) :
    MessageQueue × Nat × List Char :=
  if q.count = 0 then (q, 0, [])
  else
    let tc := skipInvalid q.messages q.tail q.count
    if tc.2 = 0 then ({ q with tail := tc.1, count := 0 }, 0, [])
    else
      let msg := q.messages.getD tc.1 emptySlot
      ({ q with messages := q.messages.set tc.1 { msg with valid := false },
                tail := nextIndex tc.1, count := tc.2 - 1 },
       copyLenOf msg bufferSize, msg.data.take (copyLenOf msg bufferSize))

/-- The local scan in `peek`:
`while (!_messages[peekIdx].valid && peekIdx != _head) peekIdx = nextIndex(peekIdx);`.
The index is always reduced mod `QUEUE_SIZE`, and `_head < QUEUE_SIZE`, so the
loop reaches `_head` after at most `QUEUE_SIZE` steps; fuel `QUEUE_SIZE`
reproduces it exactly. -/
def peekScan (msgs : List QueuedMessage) (idx head : Nat) : Nat → Nat
  | 0 => idx
  | fuel + 1 =>
    if ¬(msgs.getD idx emptySlot).valid ∧ idx ≠ head then
      peekScan msgs (nextIndex idx) head fuel
    else idx

/-- `ParanodeMessageQueue::peek`.  The C++ method assigns to no member field,
so it is embedded as a pure function from the queue to the returned length and
copied bytes. -/
def MessageQueue.peek (q : MessageQueue) (bufferSize : Nat) : Nat × List Char :=
  if q.count = 0 then (0, [])
  else
    let idx := peekScan q.messages q.tail q.head QUEUE_SIZE
    let msg := q.messages.getD idx emptySlot
    if ¬msg.valid then (0, [])
    else (copyLenOf msg bufferSize, msg.data.take (copyLenOf msg bufferSize))

/-- `ParanodeMessageQueue::clear`. -/
def MessageQueue.clear (q : MessageQueue) : MessageQueue :=
  { messages := q.messages.map (fun m => { m with valid := false }),
    head := 0, tail := 0, count := 0 }

/-- The body of the batching loop in `batchMessages`.  State: `checkIdx` is the
scan index, `i` the loop counter, `remaining = _count - i` drives structural
recursion (the loop condition `i < (int)_count` with `_count` unchanged in the
loop), `pos` the write cursor, `batched` the running result and `acc` the bytes
written after the opening `[`.  Returns `(batched, pos, acc)`. -/
def batchAux (msgs : List QueuedMessage) (checkIdx : Nat) (maxMessages : Int) (i : Nat)
    (pos : Nat) (bufferSize : Nat) (batched : Nat) (acc : List Char) :
    Nat → Nat × Nat × List Char
  | 0 => (batched, pos, acc)
  | remaining + 1 =>
    if (i : Int) < maxMessages ∧ pos < bufferSize - 2 then
      let m := msgs.getD checkIdx emptySlot
      if ¬m.valid then
        batchAux msgs (nextIndex checkIdx) maxMessages (i + 1) pos bufferSize batched acc
          remaining
      else
        -- comma separator: written first, and the loop breaks if no room
        if 0 < batched ∧ bufferSize - 2 ≤ pos then (batched, pos, acc)
        else
          let pos1 := if 0 < batched then pos + 1 else pos
          let acc1 := if 0 < batched then acc ++ [','] else acc
          if bufferSize ≤ pos1 + m.length + 2 then (batched, pos1, acc1)
          else
            batchAux msgs (nextIndex checkIdx) maxMessages (i + 1) (pos1 + m.length)
              bufferSize (batched + 1) (acc1 ++ m.data.take m.length) remaining
    else (batched, pos, acc)

/-- `ParanodeMessageQueue::batchMessages`.  Returns the number of messages
batched, and `some text` for the bytes written into the caller's buffer
(`[msg1,msg2,...]`), or `none` when the function returns before touching the
buffer. -/
def MessageQueue.batchMessages (q : MessageQueue) (bufferSize : Nat) (maxMessages : Int) :
    Nat × Option (List Char) :=
  if q.count = 0 ∨ bufferSize < 50 then (0, none)
  else
    let r := batchAux q.messages q.tail maxMessages 0 1 bufferSize 0 [] q.count
    (r.1, some (('[' :: r.2.2) ++ [']']))

/-- The age computation in `removeExpired`, including the explicit
`millis()`-overflow branch:
`currentTime >= ts ? currentTime - ts : (ULONG_MAX - ts) + currentTime`. -/
def codeAge (now ts : Nat) : Nat :=
  if ts ≤ now then now - ts else ULONG_MAX - ts + now

/-- The expiry scan: walks `_count` slots from `_tail`, tombstoning every valid
slot whose `codeAge` exceeds `timeout`.  Returns the updated slot array and the
number removed.  The loop runs exactly `_count` iterations (`_count` is only
updated after the loop), so `fuel` starts at `q.count`. -/
def removeExpiredScan (msgs : List QueuedMessage) (checkIdx now timeout : Nat)
    (removed : Nat) : Nat → List QueuedMessage × Nat
  | 0 => (msgs, removed)
  | fuel + 1 =>
    let m := msgs.getD checkIdx emptySlot
    if m.valid ∧ timeout < codeAge now m.timestamp then
      removeExpiredScan (msgs.set checkIdx { m with valid := false }) (nextIndex checkIdx)
        now timeout (removed + 1) fuel
    else removeExpiredScan msgs (nextIndex checkIdx) now timeout removed fuel

/-- The trailing loop of `removeExpired`:
`while (!isEmpty() && !_messages[_tail].valid) _tail = nextIndex(_tail);`.
This C++ loop terminates as soon as some slot is valid (the index cycles mod
`QUEUE_SIZE`), which holds in every state covered by the theorems below; fuel
`QUEUE_SIZE` then reproduces it exactly.  (If no slot were valid while
`_count > 0` the C++ loop would not terminate at all.) -/
def advanceTail (msgs : List QueuedMessage) (count : Nat) (tail : Nat) : Nat → Nat
  | 0 => tail
  | fuel + 1 =>
    if count ≠ 0 ∧ ¬(msgs.getD tail emptySlot).valid then
      advanceTail msgs count (nextIndex tail) fuel
    else tail

/-- `ParanodeMessageQueue::removeExpired`.  `now` is `millis()` at the call.
Returns the new queue and the removed count. -/
def MessageQueue.removeExpired (q : MessageQueue) (timeout now : Nat) :
    MessageQueue × Nat :=
  if q.count = 0 then (q, 0)
  else
    let r := removeExpiredScan q.messages q.tail now timeout 0 q.count
    let count' := q.count - r.2
    let tail' := advanceTail r.1 count' q.tail QUEUE_SIZE
    ({ q with messages := r.1, tail := tail', count := count' }, r.2)

/-- The number of slots whose `valid` flag is true. -/
def validCount (q : MessageQueue) : Nat :=
  ((Finset.range QUEUE_SIZE).filter
    (fun i => (q.messages.getD i emptySlot).valid = true)).card

/-! ## JSON builder (`ParanodeJsonBuilder`) -/

/-- `size_t` modulus (`2 ^ 64`): `_size - 1` in `appendChar` underflows when
`_size = 0`. -/
def USIZE_MOD : Nat := 18446744073709551616

/-- `n - 1` in `size_t` arithmetic: ordinary subtraction for positive `n`,
wrapping to `SIZE_MAX` at `n = 0`. -/
def sizeM1 (n : Nat) : Nat := if n = 0 then USIZE_MOD - 1 else n - 1

/-- `class ParanodeJsonBuilder`: caller buffer (`buf`, of physical length
`size`), `_size`, `_position`, `_firstElement`.  `oob` records whether any
write was attempted outside the physical buffer (the out-of-bounds hazard of
the C++ code; the C++ object has no such field). -/
structure JsonBuilder where
  buf : List Char
  size : Nat
  position : Nat
  firstElement : Bool
  oob : Bool
deriving Repr, DecidableEq

/-- A raw store `_buffer[i] = c`: in-bounds writes update the buffer, anything
else is an out-of-bounds write. -/
def bufWrite (b : JsonBuilder) (i : Nat) (c : Char) : JsonBuilder :=
  if i < b.buf.length then { b with buf := b.buf.set i c } else { b with oob := true }

/-- The constructor `ParanodeJsonBuilder(buffer, size)`: the caller always
passes `sizeof(buffer)`, so `size` is the buffer's length.  Writes the
terminator at index 0 when `size > 0`. -/
def mkBuilder (buffer : List Char) : JsonBuilder :=
  let b : JsonBuilder :=
    { buf := buffer, size := buffer.length, position := 0, firstElement := true, oob := false }
  if 0 < b.size then bufWrite b 0 NUL else b

/-- `hasSpace(needed)`: `(_position + needed) < _size`. -/
def hasSpace (b : JsonBuilder) (needed : Nat) : Prop := b.position + needed < b.size

instance (b : JsonBuilder) (needed : Nat) : Decidable (hasSpace b needed) :=
  inferInstanceAs (Decidable (_ < _))

/-- `appendChar(c)`: write only when `_position < _size - 1` (size_t
arithmetic, so a zero-size buffer passes the guard). -/
def appendChar (b : JsonBuilder) (c : Char) : JsonBuilder :=
  if b.position < sizeM1 b.size then
    { bufWrite b b.position c with position := b.position + 1 }
  else b

/-- `appendString(str)`: copy until the terminator or until the buffer limit.
The loop body is the same write-and-advance as `appendChar`. -/
def appendString (b : JsonBuilder) : List Char → JsonBuilder
  | [] => b
  | c :: rest =>
    if c = NUL then b
    else if b.position < sizeM1 b.size then appendString (appendChar b c) rest
    else b

/-- `appendEscaped(str)`: like `appendString` but a `"` or `\` is preceded by a
backslash (each written through `appendChar`, which rechecks the bound). -/
def appendEscaped (b : JsonBuilder) : List Char → JsonBuilder
  | [] => b
  | c :: rest =>
    if c = NUL then b
    else if b.position < sizeM1 b.size then
      let b1 := if c = '\"' ∨ c = '\\' then appendChar b '\\' else b
      appendEscaped (appendChar b1 c) rest
    else b

/-- `appendNumber(long)`: `ltoa` produces the usual decimal representation. -/
def appendNumber (b : JsonBuilder) (v : Int) : JsonBuilder :=
  appendString b (toString v).data

/-- `addCommaIfNeeded()`. -/
def addCommaIfNeeded (b : JsonBuilder) : JsonBuilder :=
  let b1 := if ¬b.firstElement then appendChar b ',' else b
  { b1 with firstElement := false }

/-- A `double` value as the builder observes it: the classification used by
`isnan`/`isinf`, with finite values as exact rationals.  (IEEE rounding inside
the digit loop is not modelled; the claims proved below do not depend on the
value of individual digits.) -/
inductive PFloat where
  | nan : PFloat
  | inf : Bool → PFloat
  | finite : ℚ → PFloat
deriving Repr, DecidableEq

/-- The fractional-digit loop of `appendFloat`: repeatedly multiply by 10,
truncate to get a digit, append `'0' + digit`, and keep the remainder.  The
fraction is nonnegative in every call, so the `(int)` truncation is `⌊·⌋`. -/
def fracLoop (b : JsonBuilder) (frac : ℚ) : Nat → JsonBuilder
  | 0 => b
  | n + 1 =>
    if b.position < sizeM1 b.size then
      let f10 := frac * 10
      let digit : ℤ := ⌊f10⌋
      fracLoop (appendChar b (Char.ofNat (48 + digit.toNat))) (f10 - digit) n
    else b

/-- `appendFloat(value, decimals)`. -/
def appendFloat (b : JsonBuilder) (v : PFloat) (decimals : Int) : JsonBuilder :=
  match v with
  | .nan => appendString b "null".data
  | .inf neg => appendString b (if neg then "-9999999" else "9999999").data
  | .finite q =>
    let b1 := if q < 0 then appendChar b '-' else b
    let q1 := if q < 0 then -q else q
    let intPart : ℤ := ⌊q1⌋
    let b2 := appendNumber b1 intPart
    if 0 < decimals then fracLoop (appendChar b2 '.') (q1 - intPart) decimals.toNat
    else b2

/-- `startObject()`. -/
def startObject (b : JsonBuilder) : JsonBuilder :=
  { appendChar b (Char.ofNat 123) with firstElement := true }

/-- `endObject()`: append `}` and write the terminator at `_position`
(unconditionally in the C++ code). -/
def endObject (b : JsonBuilder) : JsonBuilder :=
  let b1 := appendChar b (Char.ofNat 125)
  bufWrite b1 b1.position NUL

/-- `reset()`. -/
def reset (b : JsonBuilder) : JsonBuilder :=
  let b1 := { b with position := 0, firstElement := true }
  if 0 < b1.size then bufWrite b1 0 NUL else b1

/-- `addString(key, value)`. -/
def addString (b : JsonBuilder) (key value : List Char) : JsonBuilder :=
  if ¬hasSpace b (key.length + value.length + 10) then b
  else
    let b1 := addCommaIfNeeded b
    let b2 := appendChar b1 '\"'
    let b3 := appendString b2 key
    let b4 := appendString b3 "\":".data
    let b5 := appendChar b4 '\"'
    let b6 := appendEscaped b5 value
    appendChar b6 '\"'

/-- `addLong(key, value)` (and `addInt`, which delegates to it). -/
def addLong (b : JsonBuilder) (key : List Char) (v : Int) : JsonBuilder :=
  if ¬hasSpace b (key.length + 20) then b
  else
    let b1 := addCommaIfNeeded b
    let b2 := appendChar b1 '\"'
    let b3 := appendString b2 key
    let b4 := appendString b3 "\":".data
    appendNumber b4 v

/-- `addULong(key, value)` (`ultoa` then `appendString`). -/
def addULong (b : JsonBuilder) (key : List Char) (v : Nat) : JsonBuilder :=
  if ¬hasSpace b (key.length + 20) then b
  else
    let b1 := addCommaIfNeeded b
    let b2 := appendChar b1 '\"'
    let b3 := appendString b2 key
    let b4 := appendString b3 "\":".data
    appendString b4 (toString v).data

/-- `addDouble(key, value, decimals)` (and `addFloat`, which delegates). -/
def addDouble (b : JsonBuilder) (key : List Char) (v : PFloat) (decimals : Int) :
    JsonBuilder :=
  if ¬hasSpace b (key.length + 30) then b
  else
    let b1 := addCommaIfNeeded b
    let b2 := appendChar b1 '\"'
    let b3 := appendString b2 key
    let b4 := appendString b3 "\":".data
    appendFloat b4 v decimals

/-- `addBool(key, value)`. -/
def addBool (b : JsonBuilder) (key : List Char) (v : Bool) : JsonBuilder :=
  if ¬hasSpace b (key.length + 10) then b
  else
    let b1 := addCommaIfNeeded b
    let b2 := appendChar b1 '\"'
    let b3 := appendString b2 key
    let b4 := appendString b3 "\":".data
    appendString b4 (if v then "true".data else "false".data)

/-- `startNestedObject(key)`. -/
def startNestedObject (b : JsonBuilder) (key : List Char) : JsonBuilder :=
  if ¬hasSpace b (key.length + 5) then b
  else
    let b1 := addCommaIfNeeded b
    let b2 := appendChar b1 '\"'
    let b3 := appendString b2 key
    { appendString b3 "\":\x7b".data with firstElement := true }

/-- The text built so far (`getJson()` as a C string: the bytes before the
cursor; `length()` is `_position`). -/
def builtString (b : JsonBuilder) : List Char := b.buf.take b.position

/-- One public builder call, for quantifying over call sequences. -/
inductive BOp where
  | start : BOp
  | finish : BOp
  | str : List Char → List Char → BOp
  | int : List Char → Int → BOp
  | ulong : List Char → Nat → BOp
  | flt : List Char → PFloat → Int → BOp
  | bool : List Char → Bool → BOp
  | nested : List Char → BOp
  | reset : BOp
deriving Repr

/-- Apply one builder call. -/
def applyBOp (b : JsonBuilder) : BOp → JsonBuilder
  | .start => startObject b
  | .finish => endObject b
  | .str k v => addString b k v
  | .int k v => addLong b k v
  | .ulong k v => addULong b k v
  | .flt k v d => addDouble b k v d
  | .bool k v => addBool b k v
  | .nested k => startNestedObject b k
  | .reset => reset b

/-- Apply a sequence of builder calls. -/
def applyBOps (ops : List BOp) (b : JsonBuilder) : JsonBuilder :=
  ops.foldl applyBOp b

/-! ## Transport, session gate and orchestrator send paths -/

/-- `ParanodeSocket` state.  `connected` is `_isConnected`; `linkOk` is the
outcome of the wrapped library's `sendTXT` (the external transport, out of
scope); `txFrames` records every frame handed to `sendTXT`, i.e. every frame
that leaves the library toward the network stack. -/
structure SocketState where
  connected : Bool
  linkOk : Bool
  txFrames : List (List Char)
deriving Repr, DecidableEq

/-- `ParanodeSocket::send`: refuse when the socket is not connected, otherwise
hand the frame to `sendTXT` and return its result. -/
def socketSend (s : SocketState) (msg : List Char) : SocketState × Bool :=
  if ¬s.connected then (s, false)
  else ({ s with txFrames := s.txFrames ++ [msg] }, s.linkOk)

/-- `ParanodeConnection::send`: the double gate
(`!_socket.isConnected() || !_isAuthenticated` refuses the send). -/
def connectionSend (s : SocketState) (isAuthenticated : Bool) (msg : List Char) :
    SocketState × Bool :=
  if ¬s.connected ∨ ¬isAuthenticated then (s, false)
  else socketSend s msg

/-- The `Paranode` orchestrator fields the send paths read or write.  (Device
identity strings, callbacks and timer fields are omitted: the embedded
operations neither read nor write them.) -/
structure ParanodeState where
  socket : SocketState
  isConnected : Bool
  isAuthenticated : Bool
  batchingEnabled : Bool
  batchSize : Int
  queue : MessageQueue
deriving Repr, DecidableEq

/-- `Paranode::sendMessageDirect` (the `!message` null check is not
representable; no caller passes null). -/
def sendMessageDirect (st : ParanodeState) (msg : List Char) : ParanodeState × Bool :=
  if ¬st.isConnected then (st, false)
  else
    let r := socketSend st.socket msg
    ({ st with socket := r.1 }, r.2)

/-- `Paranode::sendMessageQueued`.  `now` is `millis()` at the call (stamped on
the queued entry). -/
def sendMessageQueued (st : ParanodeState) (msg : List Char) (priority : Nat)
    (now : Nat) : ParanodeState × Bool :=
  if st.isConnected ∧ ¬st.batchingEnabled then sendMessageDirect st msg
  else
    let r := st.queue.enqueue msg priority now
    ({ st with queue := r.1 }, r.2)

/-- `Paranode::buildAndSendMessage<float>`'s builder phase: the telemetry JSON
text built into the `_messageBuffer` (of size `PARANODE_MAX_MESSAGE_SIZE`). -/
def buildTelemetryFloat (key : List Char) (value : PFloat) (unit : List Char)
    (now : Nat) : List Char :=
  let b := mkBuilder (List.replicate MAX_MESSAGE_SIZE NUL)
  let b := startObject b
  let b := addString b "type".data "telemetry".data
  let b := addString b "key".data key
  let b := addDouble b "value".data value 2
  let b := if unit ≠ [] then addString b "unit".data unit else b
  let b := addULong b "timestamp".data now
  builtString (endObject b)

/-- The public wrapper `Paranode::sendData(key, float, unit)`: it calls the
template `sendData<float>` with `useQueue = _batchingEnabled`, which builds the
telemetry frame and dispatches to `sendMessageQueued` (default priority 1) or
`sendMessageDirect`. -/
def sendDataFloat (st : ParanodeState) (key : List Char) (value : PFloat)
    (unit : List Char) (now : Nat) : ParanodeState × Bool :=
  let msg := buildTelemetryFloat key value unit now
  if st.batchingEnabled then sendMessageQueued st msg 1 now
  else sendMessageDirect st msg

/-- `n` back-to-back `dequeue` calls into the 32-byte `dummyBuffer`, as
performed by `flushQueue` after a successful batch send. -/
def dequeueN (q : MessageQueue) : Nat → MessageQueue
  | 0 => q
  | n + 1 => dequeueN (q.dequeue 32).1 n

/-- The non-batching drain loop of `flushQueue` (`while (!isEmpty())` with
re-enqueue-and-break on send failure).  Every iteration with `_count > 0`
strictly decreases `_count` before any re-enqueue/break, so fuel `q.count`
reproduces the loop. -/
def drainLoop (st : ParanodeState) (now : Nat) (sent : Nat) : Nat → ParanodeState × Nat
  | 0 => (st, sent)
  | fuel + 1 =>
    if st.queue.count = 0 then (st, sent)
    else
      let d := st.queue.dequeue MAX_MESSAGE_SIZE
      let st1 := { st with queue := d.1 }
      if 0 < d.2.1 then
        let r := socketSend st1.socket d.2.2
        let st2 := { st1 with socket := r.1 }
        if r.2 then drainLoop st2 now (sent + 1) fuel
        else ({ st2 with queue := (st2.queue.enqueue d.2.2 1 now).1 }, sent)
      else drainLoop st1 now sent fuel

/-- `Paranode::flushQueue`.  Returns the new state and the `int` result.
`now` is `millis()` (only read by the failure re-enqueue path).  The frame the
batching branch sends is the text `batchMessages` wrote into `_batchBuffer`
(`batched > 0` guarantees the buffer was written, so the `Option.getD` default
is never read). -/
def flushQueue (st : ParanodeState) (now : Nat) : ParanodeState × Nat :=
  if ¬st.isConnected ∨ st.queue.count = 0 then (st, 0)
  else if st.batchingEnabled then
    let bm := st.queue.batchMessages 1024 st.batchSize
    if 0 < bm.1 then
      let r := socketSend st.socket (bm.2.getD [])
      if r.2 then
        ({ st with socket := r.1, queue := dequeueN st.queue bm.1 }, bm.1)
      else ({ st with socket := r.1 }, 0)
    else (st, 0)
  else drainLoop st now 0 st.queue.count

/-! ## Queue well-formedness and abstraction -/

/-- The ring positions occupied by the current window: `tail, tail+1, …` for
`count` steps (mod `QUEUE_SIZE`). -/
def windowIdx (q : MessageQueue) : List Nat :=
  (List.range q.count).map (fun k => (q.tail + k) % QUEUE_SIZE)

/-- Well-formed queue states: the array has its fixed length, indices are
reduced, `head` marks the end of the window, and the `valid` flags are exactly
the window (no pending tombstones).  Valid slots carry the payload they were
enqueued with (consistent `length`, bounded).  `MessageQueue.init` is well
formed, and the states reachable without full-queue eviction and without
expiry sweeps stay well formed. -/
def Wf (q : MessageQueue) : Prop :=
  q.messages.length = QUEUE_SIZE ∧
  q.tail < QUEUE_SIZE ∧
  q.head = (q.tail + q.count) % QUEUE_SIZE ∧
  q.count ≤ QUEUE_SIZE ∧
  (∀ i, i < QUEUE_SIZE →
    ((q.messages.getD i emptySlot).valid = true ↔ i ∈ windowIdx q)) ∧
  (∀ i, i < QUEUE_SIZE → (q.messages.getD i emptySlot).valid = true →
    (q.messages.getD i emptySlot).data.length = (q.messages.getD i emptySlot).length ∧
    0 < (q.messages.getD i emptySlot).length ∧
    (q.messages.getD i emptySlot).length < MAX_MESSAGE_SIZE)

instance (q : MessageQueue) : Decidable (Wf q) := by
  unfold Wf; infer_instance

/-- The abstract FIFO content of a queue: the payloads of the window slots in
ring order. -/
def absList (q : MessageQueue) : List (List Char) :=
  (List.range q.count).map
    (fun k => (q.messages.getD ((q.tail + k) % QUEUE_SIZE) emptySlot).data)

/-- One mutating queue call, for quantifying over call sequences.  `peek` and
`batchMessages` inspect the queue without assigning to any field, so they leave
the state unchanged. -/
inductive QOp where
  | enq : List Char → Nat → Nat → QOp
  | deq : Nat → QOp
  | peekOp : Nat → QOp
  | batch : Nat → Int → QOp
  | expire : Nat → Nat → QOp
  | clr : QOp
deriving Repr

/-- Apply one queue call to the state. -/
def applyQOp (q : MessageQueue) : QOp → MessageQueue
  | .enq m p now => (q.enqueue m p now).1
  | .deq bs => (q.dequeue bs).1
  | .peekOp _ => q
  | .batch _ _ => q
  | .expire t now => (q.removeExpired t now).1
  | .clr => q.clear

/-- Apply a sequence of queue calls. -/
def applyQOps (ops : List QOp) (q : MessageQueue) : MessageQueue :=
  ops.foldl applyQOp q

/-- A call trace is *safe* when no `enqueue` happens on a full queue and no
expiry sweep occurs (the two sources of tombstones and window
desynchronisation). -/
def safeOps (q : MessageQueue) : List QOp → Bool
  | [] => true
  | op :: rest =>
    (match op with
     | .enq _ _ _ => decide (q.count < QUEUE_SIZE)
     | .expire _ _ => false
     | _ => true) && safeOps (applyQOp q op) rest

/-! ## Value text produced by `appendFloat` (for stating its contract) -/

/-- The digits the fractional loop of `appendFloat` emits when buffer space is
not a constraint. -/
def fracDigits (frac : ℚ) : Nat → List Char
  | 0 => []
  | n + 1 =>
    let f10 := frac * 10
    Char.ofNat (48 + (⌊f10⌋ : ℤ).toNat) :: fracDigits (f10 - ⌊f10⌋) n

/-- The value text `appendFloat(value, decimals)` emits when buffer space is
not a constraint. -/
def encFloat (v : PFloat) (decimals : Int) : List Char :=
  match v with
  | .nan => "null".data
  | .inf neg => (if neg then "-9999999" else "9999999").data
  | .finite q =>
    let q1 := if q < 0 then -q else q
    (if q < 0 then ['-'] else []) ++ (toString (⌊q1⌋ : ℤ)).data ++
      (if 0 < decimals then '.' :: fracDigits (q1 - ⌊q1⌋) decimals.toNat else [])

/-! ## Concrete states used as inputs below -/

/-- Twenty single-byte messages `A`, `B`, …, `T`; the first has priority 2, the
second priority 0, the rest priority 2.  Fills the queue exactly. -/
def fill20 : MessageQueue :=
  (List.range QUEUE_SIZE).foldl
    (fun q i => (q.enqueue [Char.ofNat (65 + i)] (if i = 1 then 0 else 2) (1000 + i)).1)
    MessageQueue.init

/-- `fill20` after enqueueing one critical-priority message `Z` into the full
queue. -/
def evicted21 : MessageQueue := (fill20.enqueue [Char.ofNat 90] 3 2000).1

/-- The call trace producing `evicted21` from a fresh queue: twenty enqueues
(the first at priority 2, the second at priority 0, the rest at priority 2)
followed by one critical-priority enqueue on the then-full queue. -/
def evictTrace : List QOp :=
  (List.range QUEUE_SIZE).map
    (fun i => QOp.enq [Char.ofNat (65 + i)] (if i = 1 then 0 else 2) (1000 + i)) ++
  [QOp.enq [Char.ofNat 90] 3 2000]

/-- A queue holding one message enqueued just before the 32-bit `millis()`
clock wraps. -/
def wrapQueue : MessageQueue :=
  (MessageQueue.init.enqueue [Char.ofNat 97] 1 (ULONG_MOD - 1)).1

/-- A short safe call trace (no full-queue enqueue, no expiry sweep). -/
def safeTrace : List QOp :=
  [QOp.enq [Char.ofNat 97] 1 5, QOp.enq [Char.ofNat 98] 0 6, QOp.peekOp 64,
   QOp.deq 64, QOp.batch 64 5, QOp.enq [Char.ofNat 99] 3 7, QOp.clr,
   QOp.enq [Char.ofNat 100] 1 8]

/-- A small queue with three 3-byte messages (`aaa`, `bbb`, `ccc`). -/
def sampleQueue : MessageQueue :=
  (List.range 3).foldl
    (fun q i => (q.enqueue (List.replicate 3 (Char.ofNat (97 + i))) 1 10).1)
    MessageQueue.init

/-- The builder state after building `{"k":<six quotes>}` into a 19-byte
buffer: the space estimate of `addString` admits the field, but the escaped
value does not fit, so the field is truncated and the closing brace dropped. -/
def overflowBuilder : JsonBuilder :=
  applyBOps [.start, .str ['k'] (List.replicate 6 '\"'), .finish]
    (mkBuilder (List.replicate 19 ' '))

/-- The builder state after `startObject` on a zero-length buffer: the
`_position < _size - 1` guard underflows and the write lands out of bounds. -/
def zeroBuilder : JsonBuilder := applyBOps [.start] (mkBuilder [])

/-- Orchestrator state: transport connected and healthy, session NOT yet
authenticated, batching disabled, empty queue. -/
def unauthState : ParanodeState :=
  { socket := { connected := true, linkOk := true, txFrames := [] },
    isConnected := true, isAuthenticated := false,
    batchingEnabled := false, batchSize := 5, queue := MessageQueue.init }

/-- Orchestrator state: connected, authenticated, batching on, three queued
messages. -/
def flushState : ParanodeState :=
  { socket := { connected := true, linkOk := true, txFrames := [] },
    isConnected := true, isAuthenticated := true,
    batchingEnabled := true, batchSize := 5, queue := sampleQueue }

/-- Builder invariant for buffers of positive length: the physical buffer keeps
its length, the cursor stays strictly inside it, and no write has landed out
of bounds. -/
def BInv (b : JsonBuilder) : Prop :=
  b.buf.length = b.size ∧ b.size < USIZE_MOD ∧ 1 ≤ b.size ∧
  b.position + 1 ≤ b.size ∧ b.oob = false

instance (b : JsonBuilder) : Decidable (BInv b) := by
  unfold BInv; infer_instance

/-! # Theorems -/

/-- `peek`'s scan stops immediately on a valid slot. -/
theorem peekScan_valid {msgs : List QueuedMessage} {idx head n : Nat}
    (h : (msgs.getD idx emptySlot).valid = true) :
    peekScan msgs idx head (n + 1) = idx := by
  simp only [List.getD_eq_getElem?_getD] at h
  unfold peekScan; simp [h]

/-- `dequeue`'s tombstone skip stops immediately on a valid slot. -/
theorem skipInvalid_valid {msgs : List QueuedMessage} {tail c : Nat}
    (h : (msgs.getD tail emptySlot).valid = true) :
    skipInvalid msgs tail (c + 1) = (tail, c + 1) := by
  simp only [List.getD_eq_getElem?_getD] at h
  unfold skipInvalid; simp [h]

/-- `ParanodeConnection::send` really is double-gated: a `true` result needs
both the socket-connected flag and the authenticated flag (the gate the
orchestrator's own direct-send path bypasses). -/
theorem connectionSend_gate (s : SocketState) (auth : Bool) (msg : List Char)
    (h : (connectionSend s auth msg).2 = true) :
    s.connected = true ∧ auth = true := by
  unfold connectionSend at h
  by_cases hc : s.connected = true
  · by_cases ha : auth = true
    · exact ⟨hc, ha⟩
    · simp [hc, ha] at h
  · simp [hc] at h

set_option maxRecDepth 8000 in
/-- C1.  The claim fails on the code: with the transport connected but the
session NOT authenticated (and batching off), the public
`sendData(key, float, unit)` path — `sendData<float>` →
`buildAndSendMessage<float>` → `sendMessageDirect` — hands the telemetry frame
to the socket's `sendTXT` and returns `true`.  `sendMessageDirect` checks only
`_isConnected`, never `_isAuthenticated`. -/
theorem sendData_unauthenticated_reaches_transport :
    unauthState.isAuthenticated = false ∧ unauthState.isConnected = true ∧
    (sendDataFloat unauthState "temperature".data (PFloat.finite 25) [] 12345).2 = true ∧
    (sendDataFloat unauthState "temperature".data (PFloat.finite 25) [] 12345).1.socket.txFrames
      = [buildTelemetryFloat "temperature".data (PFloat.finite 25) [] 12345] := by
  refine ⟨rfl, rfl, by with_unfolding_all decide, by with_unfolding_all decide⟩

set_option maxRecDepth 8000 in
/-- C3.  The claim fails on the code: enqueueing a critical message into the
full `fill20` (oldest entry `A` at priority 2, a single low-priority entry `B`
one slot later) tombstones the low-priority victim *and* evicts the oldest
entry: afterwards only 19 slots are valid, `B`'s slot is tombstoned, the new
message `Z` overwrote the oldest slot, and `A`'s payload is gone from the
queue — two entries were removed, not exactly one, and the true oldest entry
did not survive. -/
theorem enqueue_full_highPriority_two_entries_lost :
    (fill20.enqueue [Char.ofNat 90] 3 2000).2 = true ∧
    fill20.count = 20 ∧ validCount fill20 = 20 ∧
    (fill20.messages.getD 0 emptySlot).data = [Char.ofNat 65] ∧
    (fill20.messages.getD 0 emptySlot).priority = 2 ∧ fill20.tail = 0 ∧
    (fill20.messages.getD 1 emptySlot).priority = 0 ∧
    evicted21.count = 20 ∧ validCount evicted21 = 19 ∧
    (evicted21.messages.getD 1 emptySlot).valid = false ∧
    (evicted21.messages.getD 0 emptySlot).data = [Char.ofNat 90] ∧
    (∀ i, i < QUEUE_SIZE → (evicted21.messages.getD i emptySlot).data ≠ [Char.ofNat 65]) := by
  decide

/-- C2, counterexample.  After the `evictTrace` call sequence from a fresh
queue, 19 slots are valid while `count = 20`: the number of valid slots does
not equal `count` after every operation. -/
theorem validCount_ne_count_after_eviction :
    validCount (applyQOps evictTrace MessageQueue.init) = 19 ∧
    (applyQOps evictTrace MessageQueue.init).count = 20 := by
  decide

/-- C5, counterexample.  A message stamped at `ULONG_MAX` (just before the
clock wraps) has true modular age `(now + 2^32 − T) % 2^32 = 6 > 5` at
`now = 5`, yet `removeExpired(5)` at that instant removes nothing: the code's
wrap branch computes `(ULONG_MAX − T) + now = 5`, one less than the true age. -/
theorem removeExpired_wrap_off_by_one :
    (wrapQueue.messages.getD 0 emptySlot).timestamp = ULONG_MOD - 1 ∧
    (wrapQueue.messages.getD 0 emptySlot).valid = true ∧ wrapQueue.count = 1 ∧
    (5 + (ULONG_MOD - (ULONG_MOD - 1))) % ULONG_MOD = 6 ∧
    (wrapQueue.removeExpired 5 5).2 = 0 ∧
    ((wrapQueue.removeExpired 5 5).1.messages.getD 0 emptySlot).valid = true := by
  decide

/-- C4, counterexample.  (i) On a zero-length buffer the constructor guard is
skipped but `appendChar`'s `_position < _size - 1` guard underflows, so
`startObject` writes out of bounds.  (ii) On a 19-byte buffer,
`addString("k", "\"\"\"\"\"\"")` passes the `hasSpace` estimate but the
escaped value does not fit: the field is truncated mid-value and `endObject`'s
`}` no longer fits, so the produced text has an opening brace and no closing
brace — not balanced-brace JSON. -/
theorem builder_overflow_not_balanced :
    zeroBuilder.oob = true ∧
    overflowBuilder.oob = false ∧
    (builtString overflowBuilder).count (Char.ofNat 123) = 1 ∧
    (builtString overflowBuilder).count (Char.ofNat 125) = 0 := by
  decide

/-- C6, counterexample.  In the eviction-produced state `evicted21`
(`head = tail = 1` with the tail slot tombstoned), `peek` stops its local scan
at `_head` immediately and returns 0, while an immediately following `dequeue`
skips the tombstone and returns the next message (length 1): `peek` does not
return what `dequeue` would. -/
theorem peek_dequeue_disagree_after_eviction :
    evicted21.head = 1 ∧ evicted21.tail = 1 ∧
    (evicted21.messages.getD 1 emptySlot).valid = false ∧
    (evicted21.peek 384).1 = 0 ∧
    (evicted21.dequeue 384).2.1 = 1 ∧
    (evicted21.dequeue 384).2.2 = [Char.ofNat 67] := by
  decide

/-- C6, amended.  Whenever the queue is empty or the slot at `tail` is valid —
in particular in every well-formed state, where tombstones never linger at
`tail` — `peek(buffer, n)` returns exactly the length and bytes that an
immediately following `dequeue(buffer, n)` would return (so it returns 0
exactly when that `dequeue` would); `peek` assigns to no queue field, which the
embedding reflects by typing it as a pure function of the state. -/
theorem peek_agrees_with_dequeue (q : MessageQueue) (bufferSize : Nat)
    (h : q.count = 0 ∨ (q.messages.getD q.tail emptySlot).valid = true) :
    q.peek bufferSize = ((q.dequeue bufferSize).2.1, (q.dequeue bufferSize).2.2) := by
  by_cases hc : q.count = 0
  · unfold MessageQueue.peek MessageQueue.dequeue
    simp [hc]
  · have hv : (q.messages.getD q.tail emptySlot).valid = true := h.resolve_left hc
    obtain ⟨c, hcc⟩ := Nat.exists_eq_succ_of_ne_zero hc
    unfold MessageQueue.peek MessageQueue.dequeue
    rw [show QUEUE_SIZE = 19 + 1 from rfl, peekScan_valid hv]
    rw [hcc, skipInvalid_valid hv]
    simp only [List.getD_eq_getElem?_getD] at hv
    simp [hc, hv]

/-- C6, witness for `peek_agrees_with_dequeue` at `sampleQueue` with a 384-byte
buffer. -/
theorem peek_agrees_with_dequeue_witness :
    (sampleQueue.count = 0 ∨ (sampleQueue.messages.getD sampleQueue.tail emptySlot).valid = true) ∧
    sampleQueue.peek 384 = ((sampleQueue.dequeue 384).2.1, (sampleQueue.dequeue 384).2.2) :=
  ⟨by decide, peek_agrees_with_dequeue sampleQueue 384 (by decide)⟩

/-- C10.  `batchMessages` with a buffer smaller than 50 bytes returns 0 and
returns before writing anything into the caller's buffer, whatever the queue
state (including a non-empty queue) and whatever `maxMessages`. -/
theorem batchMessages_small_buffer_noop (q : MessageQueue) (bufferSize : Nat)
    (maxMessages : Int) (h : bufferSize < 50) :
    q.batchMessages bufferSize maxMessages = (0, none) := by
  unfold MessageQueue.batchMessages
  simp [h]

/-- C10, witness: a non-empty queue and a 49-byte buffer. -/
theorem batchMessages_small_buffer_noop_witness :
    (49 : Nat) < 50 ∧ sampleQueue.count = 3 ∧
    sampleQueue.batchMessages 49 5 = (0, none) :=
  ⟨by decide, by decide, batchMessages_small_buffer_noop sampleQueue 49 5 (by decide)⟩

/-! ### List and ring-index helpers -/

theorem getD_set_self {α : Type} {l : List α} {i : Nat} {v d : α} (h : i < l.length) :
    (l.set i v).getD i d = v := by
  simp [List.getD_eq_getElem?_getD, List.getElem?_set_self h]

theorem getD_set_ne {α : Type} {l : List α} {i j : Nat} {v d : α} (h : j ≠ i) :
    (l.set j v).getD i d = l.getD i d := by
  simp [List.getD_eq_getElem?_getD, List.getElem?_set_ne h]

theorem mem_windowIdx {q : MessageQueue} {i : Nat} :
    i ∈ windowIdx q ↔ ∃ k, k < q.count ∧ i = (q.tail + k) % QUEUE_SIZE := by
  simp only [windowIdx, List.mem_map, List.mem_range]
  exact ⟨fun ⟨k, hk, he⟩ => ⟨k, hk, he.symm⟩, fun ⟨k, hk, he⟩ => ⟨k, hk, he.symm⟩⟩

/-- Ring positions `(t + k) % QUEUE_SIZE` are distinct for `k < QUEUE_SIZE`. -/
theorem mod_window_inj {t k1 k2 : Nat} (h1 : k1 < QUEUE_SIZE) (h2 : k2 < QUEUE_SIZE)
    (h : (t + k1) % QUEUE_SIZE = (t + k2) % QUEUE_SIZE) : k1 = k2 := by
  have e : QUEUE_SIZE = 20 := rfl
  rw [e] at h1 h2 h
  omega

theorem nextIndex_lt (i : Nat) : nextIndex i < QUEUE_SIZE :=
  Nat.mod_lt _ (by decide)

/-- In a well-formed non-empty queue the slot at `tail` is valid. -/
theorem wf_valid_tail {q : MessageQueue} (h : Wf q) (hc : 0 < q.count) :
    (q.messages.getD q.tail emptySlot).valid = true := by
  obtain ⟨_, htail, _, _, hvalid, _⟩ := h
  exact (hvalid q.tail htail).mpr
    (mem_windowIdx.mpr ⟨0, hc, by rw [Nat.add_zero, Nat.mod_eq_of_lt htail]⟩)

/-- On a well-formed non-empty queue, `dequeue` takes the slot at `tail`:
it tombstones it, advances `tail`, decrements `count` and copies the payload
(truncated to the buffer). -/
theorem dequeue_eq {q : MessageQueue} (h : Wf q) (hc : 0 < q.count) (bs : Nat) :
    q.dequeue bs =
      ({ q with
           messages := q.messages.set q.tail
             { q.messages.getD q.tail emptySlot with valid := false },
           tail := nextIndex q.tail, count := q.count - 1 },
       copyLenOf (q.messages.getD q.tail emptySlot) bs,
       (q.messages.getD q.tail emptySlot).data.take
         (copyLenOf (q.messages.getD q.tail emptySlot) bs)) := by
  have hv := wf_valid_tail h hc
  obtain ⟨c, hcc⟩ : ∃ c, q.count = c + 1 := ⟨q.count - 1, by omega⟩
  unfold MessageQueue.dequeue
  rw [hcc, skipInvalid_valid hv]
  simp [hcc]

/-- The tombstone skip never increases the remaining count. -/
theorem skipInvalid_le (msgs : List QueuedMessage) :
    ∀ c t, (skipInvalid msgs t c).2 ≤ c := by
  intro c
  induction c with
  | zero => intro t; simp [skipInvalid]
  | succ c ih =>
    intro t
    cases hv : (msgs.getD t emptySlot).valid with
    | true =>
      simp only [List.getD_eq_getElem?_getD] at hv
      simp [skipInvalid, hv]
    | false =>
      simp only [List.getD_eq_getElem?_getD] at hv
      rw [show skipInvalid msgs t (c + 1) = skipInvalid msgs (nextIndex t) c from by
        simp [skipInvalid, hv]]
      exact Nat.le_succ_of_le (ih (nextIndex t))

/-- On a non-full queue, `enqueue` with a valid payload writes the new entry at
`head`, advances `head` and increments `count`. -/
theorem enqueue_eq {q : MessageQueue} (hcount : q.count < QUEUE_SIZE) {msg : List Char}
    (hne : msg.length ≠ 0) (hlt : msg.length < MAX_MESSAGE_SIZE) (p now : Nat) :
    q.enqueue msg p now =
      ({ q with
           messages := q.messages.set q.head
             { data := msg, length := msg.length, timestamp := now,
               priority := p, valid := true },
           head := nextIndex q.head, count := q.count + 1 }, true) := by
  unfold MessageQueue.enqueue
  rw [if_neg (by omega : ¬(msg.length = 0 ∨ MAX_MESSAGE_SIZE ≤ msg.length))]
  simp only [if_neg (by omega : ¬QUEUE_SIZE ≤ q.count)]

/-- `enqueue` on a well-formed non-full queue with a valid payload preserves
well-formedness. -/
theorem wf_enqueue {q : MessageQueue} (h : Wf q) (hcount : q.count < QUEUE_SIZE)
    {msg : List Char} (hne : msg.length ≠ 0) (hlt : msg.length < MAX_MESSAGE_SIZE)
    (p now : Nat) : Wf (q.enqueue msg p now).1 := by
  obtain ⟨hlen, htail, hhead, hcnt, hvalid, hdata⟩ := h
  rw [enqueue_eq hcount hne hlt]
  dsimp only
  unfold Wf
  dsimp only
  have hheadlt : q.head < QUEUE_SIZE := hhead ▸ Nat.mod_lt _ (by decide)
  have hheadlen : q.head < q.messages.length := by omega
  refine ⟨by simpa using hlen, htail, ?_, (by omega : q.count + 1 ≤ QUEUE_SIZE), ?_, ?_⟩
  · show nextIndex q.head = (q.tail + (q.count + 1)) % QUEUE_SIZE
    rw [hhead, show q.tail + (q.count + 1) = q.tail + q.count + 1 from by omega]
    exact Nat.mod_add_mod _ _ _
  · intro i hi
    rcases eq_or_ne i q.head with rfl | hne2
    · rw [getD_set_self hheadlen]
      simp only [mem_windowIdx]
      exact iff_of_true trivial ⟨q.count, Nat.lt_succ_self _, hhead⟩
    · rw [getD_set_ne (Ne.symm hne2)]
      rw [hvalid i hi]
      simp only [mem_windowIdx]
      constructor
      · rintro ⟨k, hk, rfl⟩
        exact ⟨k, Nat.lt_succ_of_lt hk, rfl⟩
      · rintro ⟨k, hk, rfl⟩
        have hk2 : k < q.count + 1 := hk
        refine ⟨k, ?_, rfl⟩
        rcases Nat.lt_or_ge k q.count with hlt2 | hge
        · exact hlt2
        · exfalso
          have hkc : k = q.count := by omega
          subst hkc
          exact hne2 hhead.symm
  · intro i hi
    rcases eq_or_ne i q.head with rfl | hne2
    · rw [getD_set_self hheadlen]
      intro _
      exact ⟨rfl, Nat.pos_of_ne_zero hne, hlt⟩
    · rw [getD_set_ne (Ne.symm hne2)]
      exact hdata i hi

/-- `enqueue` on a well-formed non-full queue appends the payload to the
abstract FIFO list. -/
theorem absList_enqueue {q : MessageQueue} (h : Wf q) (hcount : q.count < QUEUE_SIZE)
    {msg : List Char} (hne : msg.length ≠ 0) (hlt : msg.length < MAX_MESSAGE_SIZE)
    (p now : Nat) :
    absList (q.enqueue msg p now).1 = absList q ++ [msg] := by
  obtain ⟨hlen, htail, hhead, hcnt, hvalid, hdata⟩ := h
  have hheadlt : q.head < QUEUE_SIZE := hhead ▸ Nat.mod_lt _ (by decide)
  have hheadlen : q.head < q.messages.length := by omega
  rw [enqueue_eq hcount hne hlt]
  dsimp only
  unfold absList
  dsimp only
  rw [List.range_succ, List.map_append, List.map_cons, List.map_nil]
  congr 1
  · apply List.map_congr_left
    intro k hk
    rw [List.mem_range] at hk
    have hne2 : q.head ≠ (q.tail + k) % QUEUE_SIZE := by
      rw [hhead]
      intro he
      have := @mod_window_inj q.tail q.count k (by omega) (by omega) he
      omega
    rw [getD_set_ne hne2]
  · rw [show (q.tail + q.count) % QUEUE_SIZE = q.head from hhead.symm,
      getD_set_self hheadlen]

/-- Scanning from `nextIndex t` is scanning from `t` shifted by one. -/
theorem window_shift (t k : Nat) :
    (nextIndex t + k) % QUEUE_SIZE = (t + (k + 1)) % QUEUE_SIZE := by
  unfold nextIndex
  rw [Nat.mod_add_mod, show t + 1 + k = t + (k + 1) from by omega]

/-- `dequeue` on a well-formed non-empty queue preserves well-formedness. -/
theorem wf_dequeue {q : MessageQueue} (h : Wf q) (hc : 0 < q.count) (bs : Nat) :
    Wf (q.dequeue bs).1 := by
  have h2 := h
  obtain ⟨hlen, htail, hhead, hcnt, hvalid, hdata⟩ := h2
  rw [dequeue_eq h hc]
  dsimp only
  unfold Wf
  dsimp only
  have htlen : q.tail < q.messages.length := by omega
  have htmod : (q.tail + 0) % QUEUE_SIZE = q.tail := by
    rw [Nat.add_zero, Nat.mod_eq_of_lt htail]
  refine ⟨by simpa using hlen, nextIndex_lt _, ?_,
    (by omega : q.count - 1 ≤ QUEUE_SIZE), ?_, ?_⟩
  · show q.head = (nextIndex q.tail + (q.count - 1)) % QUEUE_SIZE
    rw [hhead, window_shift, show q.count - 1 + 1 = q.count from by omega]
  · intro i hi
    rcases eq_or_ne i q.tail with rfl | hne2
    · rw [getD_set_self htlen]
      simp only [mem_windowIdx]
      refine iff_of_false (by simp) ?_
      rintro ⟨k, hk, he⟩
      have hk2 : k < q.count - 1 := hk
      rw [window_shift] at he
      have := @mod_window_inj q.tail 0 (k + 1) (by decide) (by omega) (htmod.trans he)
      omega
    · rw [getD_set_ne (Ne.symm hne2)]
      rw [hvalid i hi]
      simp only [mem_windowIdx]
      constructor
      · rintro ⟨k, hk, rfl⟩
        have hk0 : k ≠ 0 := by
          rintro rfl
          exact hne2 htmod
        refine ⟨k - 1, (by omega : k - 1 < q.count - 1), ?_⟩
        rw [window_shift, show k - 1 + 1 = k from by omega]
      · rintro ⟨k, hk, rfl⟩
        have hk2 : k < q.count - 1 := hk
        rw [window_shift]
        exact ⟨k + 1, by omega, rfl⟩
  · intro i hi
    rcases eq_or_ne i q.tail with rfl | hne2
    · rw [getD_set_self htlen]
      intro hfalse
      cases hfalse
    · rw [getD_set_ne (Ne.symm hne2)]
      exact hdata i hi

/-- `dequeue` on a well-formed non-empty queue decrements `count`. -/
theorem dequeue_count {q : MessageQueue} (h : Wf q) (hc : 0 < q.count) (bs : Nat) :
    (q.dequeue bs).1.count = q.count - 1 := by
  rw [dequeue_eq h hc]

/-- The head of the abstract FIFO list of a well-formed non-empty queue is the
payload at `tail`. -/
theorem absList_head {q : MessageQueue} (h : Wf q) (hc : 0 < q.count) :
    (absList q).headI = (q.messages.getD q.tail emptySlot).data := by
  obtain ⟨hlen, htail, hhead, hcnt, hvalid, hdata⟩ := h
  obtain ⟨c, hcc⟩ : ∃ c, q.count = c + 1 := ⟨q.count - 1, by omega⟩
  unfold absList
  rw [hcc, List.range_succ_eq_map]
  simp only [List.map_cons, List.headI_cons]
  rw [Nat.add_zero, Nat.mod_eq_of_lt htail]

/-- `dequeue` on a well-formed non-empty queue removes exactly the head of the
abstract FIFO list. -/
theorem absList_dequeue {q : MessageQueue} (h : Wf q) (hc : 0 < q.count) (bs : Nat) :
    absList (q.dequeue bs).1 = (absList q).tail := by
  have h2 := h
  obtain ⟨hlen, htail, hhead, hcnt, hvalid, hdata⟩ := h2
  obtain ⟨c, hcc⟩ : ∃ c, q.count = c + 1 := ⟨q.count - 1, by omega⟩
  rw [dequeue_eq h hc]
  dsimp only
  unfold absList
  dsimp only
  rw [hcc]
  rw [List.range_succ_eq_map]
  simp only [Nat.add_sub_cancel, List.map_cons, List.tail_cons, List.map_map]
  apply List.map_congr_left
  intro k hk
  rw [List.mem_range] at hk
  simp only [Function.comp]
  have htmod : (q.tail + 0) % QUEUE_SIZE = q.tail := by
    rw [Nat.add_zero, Nat.mod_eq_of_lt htail]
  have hne2 : q.tail ≠ (nextIndex q.tail + k) % QUEUE_SIZE := by
    rw [window_shift]
    intro he
    have := @mod_window_inj q.tail 0 (k + 1) (by decide) (by omega) (htmod.trans he)
    omega
  rw [getD_set_ne hne2, window_shift]

/-- In a well-formed queue the number of valid slots is exactly `count`. -/
theorem wf_validCount {q : MessageQueue} (h : Wf q) : validCount q = q.count := by
  obtain ⟨hlen, htail, hhead, hcnt, hvalid, _⟩ := h
  unfold validCount
  have himg : (Finset.range QUEUE_SIZE).filter
        (fun i => (q.messages.getD i emptySlot).valid = true)
      = (Finset.range q.count).image (fun k => (q.tail + k) % QUEUE_SIZE) := by
    ext i
    simp only [Finset.mem_filter, Finset.mem_range, Finset.mem_image]
    constructor
    · rintro ⟨hi, hval⟩
      obtain ⟨k, hk, he⟩ := mem_windowIdx.mp ((hvalid i hi).mp hval)
      exact ⟨k, hk, he.symm⟩
    · rintro ⟨k, hk, rfl⟩
      have hi : (q.tail + k) % QUEUE_SIZE < QUEUE_SIZE := Nat.mod_lt _ (by decide)
      exact ⟨hi, (hvalid _ hi).mpr (mem_windowIdx.mpr ⟨k, hk, rfl⟩)⟩
  rw [himg, Finset.card_image_of_injOn, Finset.card_range]
  intro k1 h1 k2 h2 he
  rw [Finset.mem_coe, Finset.mem_range] at h1 h2
  exact mod_window_inj (by omega) (by omega) he

/-- The fresh queue is well formed. -/
theorem wf_init : Wf MessageQueue.init := by decide

/-- `clear` produces a well-formed state from any state with the fixed array
length. -/
theorem wf_clear {q : MessageQueue} (hlen : q.messages.length = QUEUE_SIZE) :
    Wf q.clear := by
  unfold MessageQueue.clear Wf
  dsimp only
  refine ⟨by simpa using hlen, by decide, by decide, by decide, ?_, ?_⟩
  · intro i hi
    have : ((q.messages.map (fun m => { m with valid := false })).getD i
        emptySlot).valid = false := by
      simp only [List.getD_eq_getElem?_getD, List.getElem?_map]
      cases q.messages[i]? <;> simp [emptySlot]
    rw [this]
    simp [windowIdx]
  · intro i hi hval
    exfalso
    have : ((q.messages.map (fun m => { m with valid := false })).getD i
        emptySlot).valid = false := by
      simp only [List.getD_eq_getElem?_getD, List.getElem?_map]
      cases q.messages[i]? <;> simp [emptySlot]
    rw [this] at hval
    cases hval

/-! ### Count bounds for every operation -/

/-- `enqueue` keeps `count` within capacity. -/
theorem enqueue_count_le (q : MessageQueue) (msg : List Char) (p now : Nat)
    (h : q.count ≤ QUEUE_SIZE) : (q.enqueue msg p now).1.count ≤ QUEUE_SIZE := by
  unfold MessageQueue.enqueue
  by_cases hg : msg.length = 0 ∨ MAX_MESSAGE_SIZE ≤ msg.length
  · rw [if_pos hg]
    exact h
  · rw [if_neg hg]
    dsimp only
    by_cases hfull : QUEUE_SIZE ≤ q.count
    · rw [if_pos hfull]
      by_cases hp : 2 ≤ p
      · rw [if_pos hp]
        rcases hfind : findLowPriorityAux q.messages q.tail q.count with _ | j
        · dsimp only
          rw [if_pos hfull]
          show q.count - 1 + 1 ≤ QUEUE_SIZE
          simp only [QUEUE_SIZE] at *
          omega
        · dsimp only
          by_cases hj : j = q.tail
          · rw [if_pos hj]
            dsimp only
            by_cases hfull2 : QUEUE_SIZE ≤ q.count - 1
            · rw [if_pos hfull2]
              show q.count - 1 - 1 + 1 ≤ QUEUE_SIZE
              simp only [QUEUE_SIZE] at *
              omega
            · rw [if_neg hfull2]
              show q.count - 1 + 1 ≤ QUEUE_SIZE
              simp only [QUEUE_SIZE] at *
              omega
          · rw [if_neg hj]
            dsimp only
            rw [if_pos hfull]
            show q.count - 1 + 1 ≤ QUEUE_SIZE
            simp only [QUEUE_SIZE] at *
            omega
      · rw [if_neg hp]
        rw [if_pos hfull]
        show q.count - 1 + 1 ≤ QUEUE_SIZE
        simp only [QUEUE_SIZE] at *
        omega
    · rw [if_neg hfull]
      show q.count + 1 ≤ QUEUE_SIZE
      simp only [QUEUE_SIZE] at *
      omega

/-- `dequeue` never increases `count`. -/
theorem dequeue_count_le (q : MessageQueue) (bs : Nat) :
    (q.dequeue bs).1.count ≤ q.count := by
  unfold MessageQueue.dequeue
  by_cases hc : q.count = 0
  · rw [if_pos hc]
  · rw [if_neg hc]
    dsimp only
    have hle := skipInvalid_le q.messages q.count q.tail
    by_cases hz : (skipInvalid q.messages q.tail q.count).2 = 0
    · rw [if_pos hz]
      dsimp only
      omega
    · rw [if_neg hz]
      dsimp only
      omega

/-- The expiry scan removes at most one entry per scanned slot. -/
theorem removeExpiredScan_le (now timeout : Nat) :
    ∀ fuel msgs checkIdx removed,
      (removeExpiredScan msgs checkIdx now timeout removed fuel).2 ≤ removed + fuel := by
  intro fuel
  induction fuel with
  | zero => intro msgs checkIdx removed; simp [removeExpiredScan]
  | succ f ih =>
    intro msgs checkIdx removed
    unfold removeExpiredScan
    dsimp only
    by_cases hcond : (msgs.getD checkIdx emptySlot).valid = true ∧
        timeout < codeAge now (msgs.getD checkIdx emptySlot).timestamp
    · rw [if_pos hcond]
      calc (removeExpiredScan _ _ now timeout (removed + 1) f).2
          ≤ removed + 1 + f := ih _ _ _
        _ ≤ removed + (f + 1) := by omega
    · rw [if_neg hcond]
      calc (removeExpiredScan _ _ now timeout removed f).2
          ≤ removed + f := ih _ _ _
        _ ≤ removed + (f + 1) := by omega

/-- `removeExpired` removes at most `count` entries, so the `size_t`
subtraction `_count -= removed` cannot wrap: the `Nat` truncated subtraction in
the embedding agrees with the C code. -/
theorem removeExpired_removed_le (q : MessageQueue) (timeout now : Nat) :
    (q.removeExpired timeout now).2 ≤ q.count := by
  unfold MessageQueue.removeExpired
  by_cases hc : q.count = 0
  · rw [if_pos hc]
    omega
  · rw [if_neg hc]
    dsimp only
    simpa using removeExpiredScan_le now timeout q.count q.messages q.tail 0

/-- `removeExpired` never increases `count`. -/
theorem removeExpired_count_le (q : MessageQueue) (timeout now : Nat) :
    (q.removeExpired timeout now).1.count ≤ q.count := by
  unfold MessageQueue.removeExpired
  by_cases hc : q.count = 0
  · rw [if_pos hc]
  · rw [if_neg hc]
    dsimp only
    omega

/-! ### Preservation across call traces (claim C2) -/

/-- `enqueue` preserves well-formedness on a non-full queue, whether or not
the payload passes the argument checks. -/
theorem wf_enqueue_any {q : MessageQueue} (h : Wf q) (hcount : q.count < QUEUE_SIZE)
    (msg : List Char) (p now : Nat) : Wf (q.enqueue msg p now).1 := by
  by_cases hg : msg.length = 0 ∨ MAX_MESSAGE_SIZE ≤ msg.length
  · unfold MessageQueue.enqueue
    rw [if_pos hg]
    exact h
  · push_neg at hg
    exact wf_enqueue h hcount hg.1 hg.2 p now

/-- `dequeue` preserves well-formedness. -/
theorem wf_dequeue_any {q : MessageQueue} (h : Wf q) (bs : Nat) :
    Wf (q.dequeue bs).1 := by
  by_cases hc : q.count = 0
  · unfold MessageQueue.dequeue
    rw [if_pos hc]
    exact h
  · exact wf_dequeue h (Nat.pos_of_ne_zero hc) bs

/-- Every operation keeps `count` within capacity. -/
theorem applyQOp_count_le (q : MessageQueue) (op : QOp) (h : q.count ≤ QUEUE_SIZE) :
    (applyQOp q op).count ≤ QUEUE_SIZE := by
  cases op with
  | enq m p now => exact enqueue_count_le q m p now h
  | deq bs => exact le_trans (dequeue_count_le q bs) h
  | peekOp _ => exact h
  | batch _ _ => exact h
  | expire t now => exact le_trans (removeExpired_count_le q t now) h
  | clr => exact Nat.zero_le _

/-- Every call trace keeps `count` within capacity. -/
theorem applyQOps_count_le (ops : List QOp) :
    ∀ q, q.count ≤ QUEUE_SIZE → (applyQOps ops q).count ≤ QUEUE_SIZE := by
  induction ops with
  | nil => intro q h; exact h
  | cons op rest ih =>
    intro q h
    exact ih (applyQOp q op) (applyQOp_count_le q op h)

/-- A safe call trace preserves well-formedness. -/
theorem wf_applyQOps_safe (ops : List QOp) :
    ∀ q, Wf q → safeOps q ops = true → Wf (applyQOps ops q) := by
  induction ops with
  | nil => intro q h _; exact h
  | cons op rest ih =>
    intro q h hsafe
    unfold safeOps at hsafe
    rw [Bool.and_eq_true] at hsafe
    refine ih (applyQOp q op) ?_ hsafe.2
    have hcond := hsafe.1
    cases op with
    | enq m p now =>
      exact wf_enqueue_any h (of_decide_eq_true hcond) m p now
    | deq bs => exact wf_dequeue_any h bs
    | peekOp _ => exact h
    | batch _ _ => exact h
    | expire t now => cases hcond
    | clr => exact wf_clear h.1

/-- C2, amended.  For every sequence of `enqueue` / `dequeue` / `peek` /
`batchMessages` / `removeExpired` / `clear` calls from a freshly constructed
queue, `count` stays between 0 and the capacity 20 at all times (it is a
`size_t`, and no operation lets it wrap or exceed `QUEUE_SIZE`).  Moreover the
number of slots whose `valid` flag is true equals `count` after each operation
provided no `enqueue` was issued on a full queue and no `removeExpired` call
occurred; the general equality claimed fails (see the counterexample with a
full-queue priority eviction, after which 19 slots are valid but
`count = 20`). -/
theorem queue_count_bounds (ops : List QOp) :
    (applyQOps ops MessageQueue.init).count ≤ QUEUE_SIZE ∧
    (safeOps MessageQueue.init ops = true →
      validCount (applyQOps ops MessageQueue.init)
        = (applyQOps ops MessageQueue.init).count) :=
  ⟨applyQOps_count_le ops MessageQueue.init (by decide),
   fun hsafe => wf_validCount (wf_applyQOps_safe ops MessageQueue.init wf_init hsafe)⟩

/-- C2, witness: a concrete safe trace of eight calls. -/
theorem queue_count_bounds_witness :
    safeOps MessageQueue.init safeTrace = true ∧
    (applyQOps safeTrace MessageQueue.init).count ≤ QUEUE_SIZE ∧
    validCount (applyQOps safeTrace MessageQueue.init)
      = (applyQOps safeTrace MessageQueue.init).count :=
  ⟨by decide, (queue_count_bounds safeTrace).1,
   (queue_count_bounds safeTrace).2 (by decide)⟩

/-- C8.  FIFO refinement: on well-formed queues (no evictions, no expiry
removals), `enqueue` appends the payload to the abstract FIFO list and returns
`true`, and `dequeue` into a buffer at least one byte larger than the stored
length returns exactly the oldest payload's bytes and length and removes
exactly that entry — so successive dequeues return the payloads in the exact
order they were enqueued. -/
theorem fifo_refinement (q : MessageQueue) (h : Wf q) :
    (∀ msg p now, q.count < QUEUE_SIZE → msg.length ≠ 0 →
        msg.length < MAX_MESSAGE_SIZE →
        (q.enqueue msg p now).2 = true ∧ Wf (q.enqueue msg p now).1 ∧
        absList (q.enqueue msg p now).1 = absList q ++ [msg]) ∧
    (∀ bufferSize, 0 < q.count →
        (q.messages.getD q.tail emptySlot).length < bufferSize →
        (q.dequeue bufferSize).2.2 = (absList q).headI ∧
        (q.dequeue bufferSize).2.1 = (absList q).headI.length ∧
        Wf (q.dequeue bufferSize).1 ∧
        absList (q.dequeue bufferSize).1 = (absList q).tail) := by
  constructor
  · intro msg p now hcount hne hlt
    refine ⟨?_, wf_enqueue h hcount hne hlt p now, absList_enqueue h hcount hne hlt p now⟩
    rw [enqueue_eq hcount hne hlt]
  · intro bufferSize hc hbs
    have hv := wf_valid_tail h hc
    have hcopy : copyLenOf (q.messages.getD q.tail emptySlot) bufferSize
        = (q.messages.getD q.tail emptySlot).length := by
      unfold copyLenOf
      rw [if_pos hbs]
    have hdl : (q.messages.getD q.tail emptySlot).data.length
        = (q.messages.getD q.tail emptySlot).length :=
      (h.2.2.2.2.2 q.tail h.2.1 hv).1
    refine ⟨?_, ?_, wf_dequeue h hc bufferSize, absList_dequeue h hc bufferSize⟩
    · rw [dequeue_eq h hc]
      dsimp only
      rw [hcopy, absList_head h hc, ← hdl, List.take_length]
    · rw [dequeue_eq h hc]
      dsimp only
      rw [hcopy, absList_head h hc, hdl]

/-- C8, witness: `sampleQueue` (three messages `aaa`, `bbb`, `ccc`), one
enqueue of `xy` and one dequeue with a 384-byte buffer. -/
theorem fifo_refinement_witness :
    Wf sampleQueue ∧
    sampleQueue.count < QUEUE_SIZE ∧
    (sampleQueue.enqueue [Char.ofNat 120, Char.ofNat 121] 1 42).2 = true ∧
    absList (sampleQueue.enqueue [Char.ofNat 120, Char.ofNat 121] 1 42).1
      = absList sampleQueue ++ [[Char.ofNat 120, Char.ofNat 121]] ∧
    (sampleQueue.dequeue 384).2.2 = (absList sampleQueue).headI ∧
    (sampleQueue.dequeue 384).2.1 = (absList sampleQueue).headI.length ∧
    absList (sampleQueue.dequeue 384).1 = (absList sampleQueue).tail := by
  have h := fifo_refinement sampleQueue (by decide)
  have he := h.1 [Char.ofNat 120, Char.ofNat 121] 1 42 (by decide) (by decide) (by decide)
  have hd := h.2 384 (by decide) (by decide)
  exact ⟨by decide, by decide, he.1, he.2.2, hd.1, hd.2.1, hd.2.2.2⟩

/-! ### `flushQueue` batch/drain consistency (claim C7) -/

/-- `n` dequeues from a well-formed queue with at least `n` entries remove
exactly `n` entries and preserve well-formedness. -/
theorem dequeueN_count (n : Nat) :
    ∀ q : MessageQueue, Wf q → n ≤ q.count →
      Wf (dequeueN q n) ∧ (dequeueN q n).count = q.count - n := by
  induction n with
  | zero => intro q h _; exact ⟨h, rfl⟩
  | succ n ih =>
    intro q h hn
    have hc : 0 < q.count := by omega
    have hwf' := wf_dequeue h hc 32
    have hcnt' := dequeue_count h hc 32
    unfold dequeueN
    obtain ⟨hw, he⟩ := ih (q.dequeue 32).1 hwf' (by omega)
    exact ⟨hw, by omega⟩

/-- The batching loop batches at most one message per iteration. -/
theorem batchAux_le (msgs : List QueuedMessage) (maxMessages : Int) (bufferSize : Nat) :
    ∀ fuel checkIdx i pos batched acc,
      (batchAux msgs checkIdx maxMessages i pos bufferSize batched acc fuel).1
        ≤ batched + fuel := by
  intro fuel
  induction fuel with
  | zero =>
    intro checkIdx i pos batched acc
    simp [batchAux]
  | succ f ih =>
    intro checkIdx i pos batched acc
    unfold batchAux
    by_cases h1 : (i : Int) < maxMessages ∧ pos < bufferSize - 2
    · rw [if_pos h1]
      dsimp only
      by_cases h2 : (msgs.getD checkIdx emptySlot).valid = true
      · rw [if_neg (not_not_intro h2)]
        by_cases h3 : 0 < batched ∧ bufferSize - 2 ≤ pos
        · rw [if_pos h3]
          dsimp only
          omega
        · rw [if_neg h3]
          by_cases h4 : bufferSize ≤ (if 0 < batched then pos + 1 else pos)
              + (msgs.getD checkIdx emptySlot).length + 2
          · rw [if_pos h4]
            dsimp only
            omega
          · rw [if_neg h4]
            calc (batchAux msgs _ maxMessages _ _ bufferSize (batched + 1) _ f).1
                ≤ batched + 1 + f := ih _ _ _ _ _
              _ ≤ batched + (f + 1) := by omega
      · rw [if_pos h2]
        calc (batchAux msgs _ maxMessages _ _ bufferSize batched _ f).1
            ≤ batched + f := ih _ _ _ _ _
          _ ≤ batched + (f + 1) := by omega
    · rw [if_neg h1]
      dsimp only
      omega

/-- `batchMessages` never reports more messages than the queue holds. -/
theorem batchMessages_le (q : MessageQueue) (bufferSize : Nat) (maxMessages : Int) :
    (q.batchMessages bufferSize maxMessages).1 ≤ q.count := by
  unfold MessageQueue.batchMessages
  by_cases hg : q.count = 0 ∨ bufferSize < 50
  · rw [if_pos hg]
    exact Nat.zero_le _
  · rw [if_neg hg]
    dsimp only
    simpa using batchAux_le q.messages maxMessages bufferSize q.count q.tail 0 1 0 []

/-- On a non-empty queue with an adequate buffer, `batchMessages` writes the
bracketed batch text. -/
theorem batchMessages_shape (q : MessageQueue) (maxMessages : Int)
    (hc : q.count ≠ 0) :
    ∃ txt, q.batchMessages 1024 maxMessages
      = ((q.batchMessages 1024 maxMessages).1, some txt) := by
  unfold MessageQueue.batchMessages
  rw [if_neg (by omega : ¬(q.count = 0 ∨ 1024 < 50))]
  exact ⟨_, rfl⟩

/-- The socket hands the frame on and reports success exactly when it is
connected and the underlying send succeeds. -/
theorem socketSend_snd (s : SocketState) (msg : List Char) :
    (socketSend s msg).2 = (s.connected && s.linkOk) := by
  unfold socketSend
  cases hc : s.connected with
  | false =>
    rw [if_pos (by simp [hc])]
    simp
  | true =>
    rw [if_neg (by simp [hc])]
    simp

/-- C7.  With batching enabled, the transport up and the queue non-empty:
if the socket send of the batch text succeeds and the batch is non-empty,
`flushQueue` removes from the queue exactly the number of entries
`batchMessages` included in the emitted text and returns that count; if the
underlying send fails (or the socket is not connected), no entries are removed
and `flushQueue` returns 0; an empty batch also removes nothing and returns 0.
Stated over well-formed queue states. -/
theorem flushQueue_batch_consistency (st : ParanodeState) (now : Nat)
    (h : Wf st.queue) (hb : st.batchingEnabled = true) (hc : st.isConnected = true)
    (hne : st.queue.count ≠ 0) :
    (st.socket.connected = true → st.socket.linkOk = true →
      0 < (st.queue.batchMessages 1024 st.batchSize).1 →
      (flushQueue st now).2 = (st.queue.batchMessages 1024 st.batchSize).1 ∧
      (flushQueue st now).1.queue.count
        = st.queue.count - (st.queue.batchMessages 1024 st.batchSize).1 ∧
      Wf (flushQueue st now).1.queue) ∧
    ((st.socket.connected = false ∨ st.socket.linkOk = false) →
      (flushQueue st now).2 = 0 ∧ (flushQueue st now).1.queue = st.queue) ∧
    ((st.queue.batchMessages 1024 st.batchSize).1 = 0 →
      (flushQueue st now).2 = 0 ∧ (flushQueue st now).1.queue = st.queue) := by
  obtain ⟨txt, hbm⟩ := batchMessages_shape st.queue st.batchSize hne
  have hdrain := dequeueN_count (st.queue.batchMessages 1024 st.batchSize).1 st.queue h
    (batchMessages_le st.queue 1024 st.batchSize)
  unfold flushQueue
  rw [if_neg (by simp [hc, hne]), if_pos hb, hbm]
  refine ⟨?_, ?_, ?_⟩
  · intro hsc hlk hpos
    rw [if_pos hpos]
    simp only [Option.getD_some]
    have hss : (socketSend st.socket txt).2 = true := by
      rw [socketSend_snd, hsc, hlk]
      rfl
    rw [hss]
    rw [if_pos rfl]
    exact ⟨rfl, hdrain.2, hdrain.1⟩
  · intro hfail
    by_cases hpos : 0 < (st.queue.batchMessages 1024 st.batchSize).1
    · rw [if_pos hpos]
      simp only [Option.getD_some]
      have hss : (socketSend st.socket txt).2 = false := by
        rw [socketSend_snd]
        rcases hfail with hf | hf <;> simp [hf]
      rw [hss]
      rw [if_neg (by simp)]
      exact ⟨rfl, rfl⟩
    · rw [if_neg hpos]
      exact ⟨rfl, rfl⟩
  · intro hz
    rw [if_neg (by omega)]
    exact ⟨rfl, rfl⟩

/-- C7, witness: `flushState` (three queued messages, healthy socket):
`batchMessages` batches all three and `flushQueue` removes exactly three and
returns 3. -/
theorem flushQueue_batch_consistency_witness :
    Wf flushState.queue ∧ flushState.batchingEnabled = true ∧
    flushState.isConnected = true ∧ flushState.queue.count = 3 ∧
    (flushState.queue.batchMessages 1024 flushState.batchSize).1 = 3 ∧
    (flushQueue flushState 0).2 = 3 ∧
    (flushQueue flushState 0).1.queue.count = 0 := by
  have h := flushQueue_batch_consistency flushState 0 (by decide) rfl rfl (by decide)
  have hs := h.1 rfl rfl (by decide)
  exact ⟨by decide, rfl, rfl, by decide, by decide,
    hs.1.trans (by decide), hs.2.1.trans (by decide)⟩

/-! ### Expiry characterisation (claim C5) -/

/-- Characterisation of the expiry scan: it returns `removed` plus the number
of scanned slots that are valid and over age, and it tombstones exactly the
scanned valid over-age slots, leaving every other slot unchanged. -/
theorem removeExpiredScan_spec (now timeout : Nat) :
    ∀ fuel msgs checkIdx removed, msgs.length = QUEUE_SIZE → checkIdx < QUEUE_SIZE →
      fuel ≤ QUEUE_SIZE →
      ((removeExpiredScan msgs checkIdx now timeout removed fuel).2
        = removed + (List.range fuel).countP (fun k =>
            decide ((msgs.getD ((checkIdx + k) % QUEUE_SIZE) emptySlot).valid = true ∧
              timeout < codeAge now
                ((msgs.getD ((checkIdx + k) % QUEUE_SIZE) emptySlot).timestamp)))) ∧
      ∀ i, i < QUEUE_SIZE →
        (removeExpiredScan msgs checkIdx now timeout removed fuel).1.getD i emptySlot
          = if (∃ k, k < fuel ∧ i = (checkIdx + k) % QUEUE_SIZE) ∧
               (msgs.getD i emptySlot).valid = true ∧
               timeout < codeAge now (msgs.getD i emptySlot).timestamp
            then { msgs.getD i emptySlot with valid := false }
            else msgs.getD i emptySlot := by
  intro fuel
  induction fuel with
  | zero =>
    intro msgs checkIdx removed hlen hidx hfuel
    refine ⟨by simp [removeExpiredScan], ?_⟩
    intro i hi
    rw [if_neg]
    · rfl
    · rintro ⟨⟨k, hk, _⟩, _⟩
      omega
  | succ f ih =>
    intro msgs checkIdx removed hlen hidx hfuel
    have hidx0 : (checkIdx + 0) % QUEUE_SIZE = checkIdx := by
      rw [Nat.add_zero, Nat.mod_eq_of_lt hidx]
    have hshift : ∀ k, (nextIndex checkIdx + k) % QUEUE_SIZE
        = (checkIdx + (k + 1)) % QUEUE_SIZE := fun k => window_shift checkIdx k
    have hnotc : ∀ k, k < f → (checkIdx + (k + 1)) % QUEUE_SIZE ≠ checkIdx := by
      intro k hk he
      have := @mod_window_inj checkIdx (k + 1) 0
        (by simp only [QUEUE_SIZE] at hfuel ⊢; omega) (by decide)
        (he.trans hidx0.symm)
      omega
    by_cases hexp : (msgs.getD checkIdx emptySlot).valid = true ∧
        timeout < codeAge now (msgs.getD checkIdx emptySlot).timestamp
    · have hstep : removeExpiredScan msgs checkIdx now timeout removed (f + 1)
          = removeExpiredScan
              (msgs.set checkIdx { msgs.getD checkIdx emptySlot with valid := false })
              (nextIndex checkIdx) now timeout (removed + 1) f := by
        conv_lhs => unfold removeExpiredScan
        rw [if_pos hexp]
      have hclen : (msgs.set checkIdx
          { msgs.getD checkIdx emptySlot with valid := false }).length = QUEUE_SIZE := by
        simpa using hlen
      obtain ⟨ihc, ihs⟩ := ih
        (msgs.set checkIdx { msgs.getD checkIdx emptySlot with valid := false })
        (nextIndex checkIdx) (removed + 1) hclen (nextIndex_lt _) (by omega)
      have hsame : ∀ k, k < f →
          ((msgs.set checkIdx { msgs.getD checkIdx emptySlot with valid := false }).getD
            ((nextIndex checkIdx + k) % QUEUE_SIZE) emptySlot)
          = msgs.getD ((checkIdx + (k + 1)) % QUEUE_SIZE) emptySlot := by
        intro k hk
        rw [hshift k, getD_set_ne (Ne.symm (hnotc k hk))]
      constructor
      · rw [hstep, ihc]
        have hpos0 : (fun k => decide
            ((msgs.getD ((checkIdx + k) % QUEUE_SIZE) emptySlot).valid = true ∧
              timeout < codeAge now
                ((msgs.getD ((checkIdx + k) % QUEUE_SIZE) emptySlot).timestamp))) 0
            = true := by
          simp only [hidx0]
          exact decide_eq_true hexp
        rw [List.range_succ_eq_map, List.countP_cons, List.countP_map, if_pos hpos0]
        have hcongr : List.countP (fun k => decide
              (((msgs.set checkIdx { msgs.getD checkIdx emptySlot with
                  valid := false }).getD ((nextIndex checkIdx + k) % QUEUE_SIZE)
                    emptySlot).valid = true ∧
                timeout < codeAge now
                  (((msgs.set checkIdx { msgs.getD checkIdx emptySlot with
                      valid := false }).getD ((nextIndex checkIdx + k) % QUEUE_SIZE)
                        emptySlot).timestamp))) (List.range f)
            = List.countP ((fun k => decide
                ((msgs.getD ((checkIdx + k) % QUEUE_SIZE) emptySlot).valid = true ∧
                  timeout < codeAge now
                    ((msgs.getD ((checkIdx + k) % QUEUE_SIZE) emptySlot).timestamp)))
              ∘ Nat.succ) (List.range f) := by
          apply List.countP_congr
          intro k hk
          simp only [Function.comp_apply, decide_eq_true_eq, Nat.succ_eq_add_one]
          rw [hsame k (List.mem_range.mp hk)]
        rw [hcongr]
        omega
      · intro i hi
        rw [hstep]
        rcases eq_or_ne i checkIdx with rfl | hne2
        · rw [ihs i hi]
          rw [if_neg, if_pos]
          · rw [getD_set_self (by omega)]
          · exact ⟨⟨0, by omega, hidx0.symm⟩, hexp⟩
          · rintro ⟨_, hval, _⟩
            rw [getD_set_self (by omega)] at hval
            cases hval
        · rw [ihs i hi, getD_set_ne (Ne.symm hne2)]
          have hcond : ((∃ k, k < f ∧ i = (nextIndex checkIdx + k) % QUEUE_SIZE)
              ↔ (∃ k, k < f + 1 ∧ i = (checkIdx + k) % QUEUE_SIZE)) := by
            constructor
            · rintro ⟨k, hk, rfl⟩
              exact ⟨k + 1, by omega, (hshift k).symm ▸ rfl⟩
            · rintro ⟨k, hk, rfl⟩
              have hk0 : k ≠ 0 := by
                rintro rfl
                exact hne2 hidx0
              refine ⟨k - 1, by omega, ?_⟩
              rw [hshift, show k - 1 + 1 = k from by omega]
          by_cases hin : ∃ k, k < f + 1 ∧ i = (checkIdx + k) % QUEUE_SIZE
          · by_cases hva : (msgs.getD i emptySlot).valid = true ∧
                timeout < codeAge now (msgs.getD i emptySlot).timestamp
            · rw [if_pos ⟨hcond.mpr hin, hva⟩, if_pos ⟨hin, hva⟩]
            · rw [if_neg (fun hx => hva hx.2), if_neg (fun hx => hva hx.2)]
          · rw [if_neg (fun hx => hin (hcond.mp hx.1)), if_neg (fun hx => hin hx.1)]
    · have hstep : removeExpiredScan msgs checkIdx now timeout removed (f + 1)
          = removeExpiredScan msgs (nextIndex checkIdx) now timeout removed f := by
        conv_lhs => unfold removeExpiredScan
        rw [if_neg hexp]
      obtain ⟨ihc, ihs⟩ := ih msgs (nextIndex checkIdx) removed hlen (nextIndex_lt _)
        (by omega)
      constructor
      · rw [hstep, ihc]
        have hneg0 : ¬(fun k => decide
            ((msgs.getD ((checkIdx + k) % QUEUE_SIZE) emptySlot).valid = true ∧
              timeout < codeAge now
                ((msgs.getD ((checkIdx + k) % QUEUE_SIZE) emptySlot).timestamp))) 0
            = true := by
          simp only [hidx0]
          exact fun hx => hexp (of_decide_eq_true hx)
        rw [List.range_succ_eq_map, List.countP_cons, List.countP_map, if_neg hneg0]
        have hcongr : List.countP (fun k => decide
              ((msgs.getD ((nextIndex checkIdx + k) % QUEUE_SIZE) emptySlot).valid
                  = true ∧
                timeout < codeAge now
                  ((msgs.getD ((nextIndex checkIdx + k) % QUEUE_SIZE)
                    emptySlot).timestamp))) (List.range f)
            = List.countP ((fun k => decide
                ((msgs.getD ((checkIdx + k) % QUEUE_SIZE) emptySlot).valid = true ∧
                  timeout < codeAge now
                    ((msgs.getD ((checkIdx + k) % QUEUE_SIZE) emptySlot).timestamp)))
              ∘ Nat.succ) (List.range f) := by
          apply List.countP_congr
          intro k hk
          simp only [Function.comp_apply, decide_eq_true_eq, Nat.succ_eq_add_one]
          rw [hshift k]
        rw [hcongr]
        omega
      · intro i hi
        rw [hstep]
        rcases eq_or_ne i checkIdx with rfl | hne2
        · rw [ihs i hi]
          rw [if_neg, if_neg]
          · exact fun hx => hexp hx.2
          · rintro ⟨⟨k, hk, he⟩, _⟩
            exact hnotc k hk ((hshift k ▸ he).symm)
        · rw [ihs i hi]
          have hcond : ((∃ k, k < f ∧ i = (nextIndex checkIdx + k) % QUEUE_SIZE)
              ↔ (∃ k, k < f + 1 ∧ i = (checkIdx + k) % QUEUE_SIZE)) := by
            constructor
            · rintro ⟨k, hk, rfl⟩
              exact ⟨k + 1, by omega, (hshift k).symm ▸ rfl⟩
            · rintro ⟨k, hk, rfl⟩
              have hk0 : k ≠ 0 := by
                rintro rfl
                exact hne2 hidx0
              refine ⟨k - 1, by omega, ?_⟩
              rw [hshift, show k - 1 + 1 = k from by omega]
          by_cases hin : ∃ k, k < f + 1 ∧ i = (checkIdx + k) % QUEUE_SIZE
          · by_cases hva : (msgs.getD i emptySlot).valid = true ∧
                timeout < codeAge now (msgs.getD i emptySlot).timestamp
            · rw [if_pos ⟨hcond.mpr hin, hva⟩, if_pos ⟨hin, hva⟩]
            · rw [if_neg (fun hx => hva hx.2), if_neg (fun hx => hva hx.2)]
          · rw [if_neg (fun hx => hin (hcond.mp hx.1)), if_neg (fun hx => hin hx.1)]

/-- Counting a decidable predicate over `Finset.range` agrees with `countP`
over `List.range`. -/
theorem card_filter_range_eq_countP (P : Nat → Prop) [DecidablePred P] :
    ∀ n, ((Finset.range n).filter P).card = (List.range n).countP (fun k => decide (P k)) := by
  intro n
  induction n with
  | zero => simp
  | succ n ih =>
    rw [Finset.range_succ, Finset.filter_insert, List.range_succ, List.countP_append]
    by_cases hp : P n
    · rw [if_pos hp, Finset.card_insert_of_not_mem (by simp)]
      simp [hp, ih]
    · rw [if_neg hp]
      simp [hp, ih]

/-- A predicate that implies validity is supported inside the window, so
counting it over all slots equals counting it over window offsets. -/
theorem card_filter_window (q : MessageQueue) (h : Wf q) (P : Nat → Prop)
    [DecidablePred P] (hP : ∀ i, P i → (q.messages.getD i emptySlot).valid = true) :
    ((Finset.range QUEUE_SIZE).filter P).card
      = ((Finset.range q.count).filter (fun k => P ((q.tail + k) % QUEUE_SIZE))).card := by
  obtain ⟨hlen, htail, hhead, hcnt, hvalid, _⟩ := h
  have himg : (Finset.range QUEUE_SIZE).filter P
      = ((Finset.range q.count).filter
          (fun k => P ((q.tail + k) % QUEUE_SIZE))).image
        (fun k => (q.tail + k) % QUEUE_SIZE) := by
    ext i
    simp only [Finset.mem_filter, Finset.mem_range, Finset.mem_image]
    constructor
    · rintro ⟨hi, hp⟩
      obtain ⟨k, hk, rfl⟩ := mem_windowIdx.mp ((hvalid i hi).mp (hP i hp))
      exact ⟨k, ⟨hk, hp⟩, rfl⟩
    · rintro ⟨k, ⟨hk, hp⟩, rfl⟩
      exact ⟨Nat.mod_lt _ (by decide), hp⟩
  rw [himg, Finset.card_image_of_injOn]
  intro k1 h1 k2 h2 he
  rw [Finset.mem_coe, Finset.mem_filter, Finset.mem_range] at h1 h2
  exact mod_window_inj (by omega) (by omega) he

/-- C5, amended.  On a well-formed queue, `removeExpired(timeout)` called at
clock `now` tombstones a valid entry if and only if its age *as the code
computes it* — `now − T` when `now ≥ T`, else `(ULONG_MAX − T) + now` —
exceeds `timeout`; `count` decreases by exactly the number of entries removed,
which is also the returned value.  In the wrapped case the code's age is one
less than the true age modulo `2^32` (the final conjunct), which is the only
deviation from the claim. -/
theorem removeExpired_characterisation (q : MessageQueue) (h : Wf q)
    (timeout now : Nat) :
    (∀ i, i < QUEUE_SIZE →
      ((((q.removeExpired timeout now).1.messages.getD i emptySlot).valid = false ∧
          (q.messages.getD i emptySlot).valid = true) ↔
        ((q.messages.getD i emptySlot).valid = true ∧
          timeout < codeAge now (q.messages.getD i emptySlot).timestamp))) ∧
    q.count = (q.removeExpired timeout now).1.count + (q.removeExpired timeout now).2 ∧
    (q.removeExpired timeout now).2
      = ((Finset.range QUEUE_SIZE).filter (fun i =>
          (q.messages.getD i emptySlot).valid = true ∧
          timeout < codeAge now (q.messages.getD i emptySlot).timestamp)).card ∧
    (∀ ts, ts < ULONG_MOD → now < ts →
      codeAge now ts + 1 = (now + (ULONG_MOD - ts)) % ULONG_MOD) := by
  have harith : ∀ ts, ts < ULONG_MOD → now < ts →
      codeAge now ts + 1 = (now + (ULONG_MOD - ts)) % ULONG_MOD := by
    intro ts h1 h2
    unfold codeAge
    rw [if_neg (by omega)]
    simp only [ULONG_MOD, ULONG_MAX] at *
    rw [Nat.mod_eq_of_lt (by omega)]
    omega
  obtain ⟨hlen, htail, hhead, hcnt, hvalid, hdata⟩ := h
  by_cases hc : q.count = 0
  · have hval0 : ∀ i, i < QUEUE_SIZE → (q.messages.getD i emptySlot).valid = false := by
      intro i hi
      have := hvalid i hi
      rw [Bool.eq_false_iff]
      intro hv
      obtain ⟨k, hk, _⟩ := mem_windowIdx.mp (this.mp hv)
      omega
    have hre : q.removeExpired timeout now = (q, 0) := by
      unfold MessageQueue.removeExpired
      rw [if_pos hc]
    rw [hre]
    refine ⟨?_, (show q.count = q.count + 0 from by omega), ?_, harith⟩
    · intro i hi
      rw [hval0 i hi]
      constructor
      · rintro ⟨_, hfalse⟩
        cases hfalse
      · rintro ⟨hfalse, _⟩
        cases hfalse
    · show (0 : Nat) = _
      symm
      rw [Finset.card_eq_zero, Finset.filter_eq_empty_iff]
      intro i hi
      rw [Finset.mem_range] at hi
      rw [hval0 i hi]
      rintro ⟨hfalse, _⟩
      cases hfalse
  · have hre : q.removeExpired timeout now
        = ({ q with
              messages := (removeExpiredScan q.messages q.tail now timeout 0 q.count).1,
              tail := advanceTail (removeExpiredScan q.messages q.tail now timeout 0 q.count).1
                (q.count - (removeExpiredScan q.messages q.tail now timeout 0 q.count).2)
                q.tail QUEUE_SIZE,
              count := q.count - (removeExpiredScan q.messages q.tail now timeout 0 q.count).2 },
           (removeExpiredScan q.messages q.tail now timeout 0 q.count).2) := by
      unfold MessageQueue.removeExpired
      rw [if_neg hc]
    obtain ⟨hscnt, hslot⟩ := removeExpiredScan_spec now timeout q.count q.messages q.tail 0
      hlen htail hcnt
    have hr2 : (removeExpiredScan q.messages q.tail now timeout 0 q.count).2
        = ((Finset.range QUEUE_SIZE).filter (fun i =>
            (q.messages.getD i emptySlot).valid = true ∧
            timeout < codeAge now (q.messages.getD i emptySlot).timestamp)).card := by
      rw [hscnt, Nat.zero_add]
      rw [card_filter_window q ⟨hlen, htail, hhead, hcnt, hvalid, hdata⟩ _
        (fun i hp => hp.1)]
      rw [card_filter_range_eq_countP]
    have hr2le : (removeExpiredScan q.messages q.tail now timeout 0 q.count).2 ≤ q.count := by
      rw [hscnt, Nat.zero_add]
      exact le_trans (List.countP_le_length _) (le_of_eq (List.length_range _))
    rw [hre]
    dsimp only
    refine ⟨?_, by omega, hr2, harith⟩
    intro i hi
    rw [hslot i hi]
    by_cases hva : (q.messages.getD i emptySlot).valid = true ∧
        timeout < codeAge now (q.messages.getD i emptySlot).timestamp
    · have hwin : ∃ k, k < q.count ∧ i = (q.tail + k) % QUEUE_SIZE :=
        mem_windowIdx.mp ((hvalid i hi).mp hva.1)
      rw [if_pos ⟨hwin, hva⟩]
      exact iff_of_true ⟨rfl, hva.1⟩ hva
    · rw [if_neg (fun hx => hva hx.2)]
      refine iff_of_false ?_ hva
      rintro ⟨hf, ht⟩
      rw [ht] at hf
      cases hf

/-- C5, witness for `removeExpired_characterisation` at `wrapQueue`
(one entry stamped at `ULONG_MAX`), `timeout = 5`, `now = 5`. -/
theorem removeExpired_characterisation_witness :
    Wf wrapQueue ∧
    ((((wrapQueue.removeExpired 5 5).1.messages.getD 0 emptySlot).valid = false ∧
        (wrapQueue.messages.getD 0 emptySlot).valid = true) ↔
      ((wrapQueue.messages.getD 0 emptySlot).valid = true ∧
        5 < codeAge 5 (wrapQueue.messages.getD 0 emptySlot).timestamp)) ∧
    wrapQueue.count
      = (wrapQueue.removeExpired 5 5).1.count + (wrapQueue.removeExpired 5 5).2 := by
  have h := removeExpired_characterisation wrapQueue (by decide) 5 5
  exact ⟨by decide, h.1 0 (by decide), h.2.1⟩

/-! ### Builder safety invariant (claim C4) -/

/-- For positive `size_t` sizes, `_size - 1` is ordinary subtraction. -/
theorem sizeM1_eq {n : Nat} (h1 : 1 ≤ n) (_h2 : n < USIZE_MOD) : sizeM1 n = n - 1 := by
  unfold sizeM1
  rw [if_neg (by omega)]

theorem binv_appendChar {b : JsonBuilder} (h : BInv b) (c : Char) :
    BInv (appendChar b c) := by
  obtain ⟨hl, hu, h1, hp, ho⟩ := h
  unfold appendChar
  by_cases hc : b.position < sizeM1 b.size
  · rw [if_pos hc]
    rw [sizeM1_eq h1 hu] at hc
    unfold bufWrite
    rw [if_pos (by omega : b.position < b.buf.length)]
    refine ⟨?_, hu, h1, ?_, ho⟩
    · show (b.buf.set b.position c).length = b.size
      simpa using hl
    · show b.position + 1 + 1 ≤ b.size
      omega
  · rw [if_neg hc]
    exact ⟨hl, hu, h1, hp, ho⟩

theorem binv_appendString {b : JsonBuilder} (h : BInv b) (s : List Char) :
    BInv (appendString b s) := by
  induction s generalizing b with
  | nil => exact h
  | cons c rest ih =>
    unfold appendString
    by_cases hc : c = NUL
    · rw [if_pos hc]
      exact h
    · rw [if_neg hc]
      by_cases hpos : b.position < sizeM1 b.size
      · rw [if_pos hpos]
        exact ih (binv_appendChar h c)
      · rw [if_neg hpos]
        exact h

theorem binv_appendEscaped {b : JsonBuilder} (h : BInv b) (s : List Char) :
    BInv (appendEscaped b s) := by
  induction s generalizing b with
  | nil => exact h
  | cons c rest ih =>
    unfold appendEscaped
    by_cases hc : c = NUL
    · rw [if_pos hc]
      exact h
    · rw [if_neg hc]
      by_cases hpos : b.position < sizeM1 b.size
      · rw [if_pos hpos]
        by_cases hesc : c = '\"' ∨ c = '\\'
        · rw [if_pos hesc]
          exact ih (binv_appendChar (binv_appendChar h _) c)
        · rw [if_neg hesc]
          exact ih (binv_appendChar h c)
      · rw [if_neg hpos]
        exact h

theorem binv_appendNumber {b : JsonBuilder} (h : BInv b) (v : Int) :
    BInv (appendNumber b v) :=
  binv_appendString h _

theorem binv_addCommaIfNeeded {b : JsonBuilder} (h : BInv b) :
    BInv (addCommaIfNeeded b) := by
  unfold addCommaIfNeeded
  by_cases hf : ¬b.firstElement = true
  · rw [if_pos hf]
    have h2 := binv_appendChar h ','
    exact ⟨h2.1, h2.2.1, h2.2.2.1, h2.2.2.2.1, h2.2.2.2.2⟩
  · rw [if_neg hf]
    exact ⟨h.1, h.2.1, h.2.2.1, h.2.2.2.1, h.2.2.2.2⟩

theorem binv_fracLoop {b : JsonBuilder} (h : BInv b) (frac : ℚ) (n : Nat) :
    BInv (fracLoop b frac n) := by
  induction n generalizing b frac with
  | zero => exact h
  | succ n ih =>
    unfold fracLoop
    by_cases hpos : b.position < sizeM1 b.size
    · rw [if_pos hpos]
      exact ih (binv_appendChar h _) _
    · rw [if_neg hpos]
      exact h

theorem binv_appendFloat {b : JsonBuilder} (h : BInv b) (v : PFloat) (decimals : Int) :
    BInv (appendFloat b v decimals) := by
  unfold appendFloat
  cases v with
  | nan => exact binv_appendString h _
  | inf neg => exact binv_appendString h _
  | finite q =>
    dsimp only
    by_cases hd : (0 : Int) < decimals
    · rw [if_pos hd]
      exact binv_fracLoop (binv_appendChar (binv_appendNumber
        (by split_ifs with hq
            · exact binv_appendChar h _
            · exact h) _) _) _ _
    · rw [if_neg hd]
      exact binv_appendNumber
        (by split_ifs with hq
            · exact binv_appendChar h _
            · exact h) _

theorem binv_startObject {b : JsonBuilder} (h : BInv b) : BInv (startObject b) := by
  have h2 := binv_appendChar h (Char.ofNat 123)
  exact ⟨h2.1, h2.2.1, h2.2.2.1, h2.2.2.2.1, h2.2.2.2.2⟩

theorem binv_endObject {b : JsonBuilder} (h : BInv b) : BInv (endObject b) := by
  unfold endObject
  have h2 := binv_appendChar h (Char.ofNat 125)
  obtain ⟨hl, hu, h1, hp, ho⟩ := h2
  unfold bufWrite
  rw [if_pos (by omega)]
  exact ⟨by simpa using hl, hu, h1, hp, ho⟩

theorem binv_reset {b : JsonBuilder} (h : BInv b) : BInv (reset b) := by
  obtain ⟨hl, hu, h1, hp, ho⟩ := h
  unfold reset
  rw [if_pos (by omega : (0 : Nat) < b.size)]
  unfold bufWrite
  rw [if_pos (by omega : (0 : Nat) < b.buf.length)]
  refine ⟨?_, hu, h1, ?_, ho⟩
  · show (b.buf.set 0 NUL).length = b.size
    simpa using hl
  · show 0 + 1 ≤ b.size
    omega

theorem binv_addString {b : JsonBuilder} (h : BInv b) (key value : List Char) :
    BInv (addString b key value) := by
  unfold addString
  split_ifs with hs
  · exact binv_appendChar (binv_appendEscaped (binv_appendChar (binv_appendString
      (binv_appendString (binv_appendChar (binv_addCommaIfNeeded h) _) _) _) _) _) _
  · exact h

theorem binv_addLong {b : JsonBuilder} (h : BInv b) (key : List Char) (v : Int) :
    BInv (addLong b key v) := by
  unfold addLong
  split_ifs with hs
  · exact binv_appendNumber (binv_appendString (binv_appendString
      (binv_appendChar (binv_addCommaIfNeeded h) _) _) _) _
  · exact h

theorem binv_addULong {b : JsonBuilder} (h : BInv b) (key : List Char) (v : Nat) :
    BInv (addULong b key v) := by
  unfold addULong
  split_ifs with hs
  · exact binv_appendString (binv_appendString (binv_appendString
      (binv_appendChar (binv_addCommaIfNeeded h) _) _) _) _
  · exact h

theorem binv_addDouble {b : JsonBuilder} (h : BInv b) (key : List Char) (v : PFloat)
    (decimals : Int) : BInv (addDouble b key v decimals) := by
  unfold addDouble
  split_ifs with hs
  · exact binv_appendFloat (binv_appendString (binv_appendString
      (binv_appendChar (binv_addCommaIfNeeded h) _) _) _) _ _
  · exact h

theorem binv_addBool {b : JsonBuilder} (h : BInv b) (key : List Char) (v : Bool) :
    BInv (addBool b key v) := by
  unfold addBool
  by_cases hs : hasSpace b (key.length + 10)
  · rw [if_neg (not_not_intro hs)]
    exact binv_appendString (binv_appendString (binv_appendString
      (binv_appendChar (binv_addCommaIfNeeded h) _) _) _) _
  · rw [if_pos hs]
    exact h

theorem binv_startNestedObject {b : JsonBuilder} (h : BInv b) (key : List Char) :
    BInv (startNestedObject b key) := by
  unfold startNestedObject
  split_ifs with hs
  · have h2 := binv_appendString (binv_appendString
      (binv_appendChar (binv_addCommaIfNeeded h) (Char.ofNat 34)) key) "\":\x7b".data
    exact ⟨h2.1, h2.2.1, h2.2.2.1, h2.2.2.2.1, h2.2.2.2.2⟩
  · exact h

theorem binv_applyBOp {b : JsonBuilder} (h : BInv b) (op : BOp) :
    BInv (applyBOp b op) := by
  cases op with
  | start => exact binv_startObject h
  | finish => exact binv_endObject h
  | str k v => exact binv_addString h k v
  | int k v => exact binv_addLong h k v
  | ulong k v => exact binv_addULong h k v
  | flt k v d => exact binv_addDouble h k v d
  | bool k v => exact binv_addBool h k v
  | nested k => exact binv_startNestedObject h k
  | reset => exact binv_reset h

theorem binv_applyBOps (ops : List BOp) :
    ∀ b, BInv b → BInv (applyBOps ops b) := by
  induction ops with
  | nil => intro b h; exact h
  | cons op rest ih => intro b h; exact ih _ (binv_applyBOp h op)

theorem binv_mkBuilder {buffer : List Char} (h1 : 1 ≤ buffer.length)
    (h2 : buffer.length < USIZE_MOD) : BInv (mkBuilder buffer) := by
  unfold mkBuilder
  rw [if_pos (by omega : (0 : Nat) < buffer.length)]
  unfold bufWrite
  rw [if_pos (by omega : (0 : Nat) < buffer.length)]
  refine ⟨?_, h2, h1, ?_, rfl⟩
  · show (buffer.set 0 NUL).length = buffer.length
    simp
  · show 0 + 1 ≤ buffer.length
    omega

/-! ### Builder output text (claims C4 and C9) -/

/-- Setting index `i` and taking `i + 1` elements appends the written byte to
the prefix. -/
theorem take_set_eq {l : List Char} {i : Nat} (c : Char) (h : i < l.length) :
    (l.set i c).take (i + 1) = l.take i ++ [c] := by
  rw [List.take_succ]
  congr 1
  · apply List.ext_getElem?
    intro j
    by_cases hj : j < i
    · rw [List.getElem?_take_of_lt hj, List.getElem?_take_of_lt hj]
      exact List.getElem?_set_ne (by omega)
    · rw [List.getElem?_take_eq_none (by omega), List.getElem?_take_eq_none (by omega)]
  · rw [List.getElem?_set_self (by simpa using h)]
    rfl

/-- An in-range `bufWrite` leaves `position` unchanged in both branches. -/
theorem bufWrite_position (b : JsonBuilder) (i : Nat) (c : Char) :
    (bufWrite b i c).position = b.position := by
  unfold bufWrite
  split_ifs <;> rfl

/-- An in-range `bufWrite` really stores the byte at index `i`. -/
theorem bufWrite_read {b : JsonBuilder} {i : Nat} (c : Char) (hp : i < b.buf.length) :
    (bufWrite b i c).buf.getD i 'x' = c := by
  unfold bufWrite
  rw [if_pos hp]
  show (b.buf.set i c).getD i 'x' = c
  rw [List.getD_eq_getElem?_getD, List.getElem?_set_self (by simpa using hp)]
  rfl

/-- `appendChar` under the bound: size kept, cursor advances, text grows by
the character. -/
theorem appendChar_spec {b : JsonBuilder} (hb : BInv b) (c : Char)
    (hlt : b.position < sizeM1 b.size) :
    (appendChar b c).size = b.size ∧ (appendChar b c).position = b.position + 1 ∧
    builtString (appendChar b c) = builtString b ++ [c] := by
  obtain ⟨hl, hu, h1, hp, ho⟩ := hb
  unfold appendChar
  rw [if_pos hlt]
  rw [sizeM1_eq h1 hu] at hlt
  unfold bufWrite
  rw [if_pos (by omega : b.position < b.buf.length)]
  refine ⟨rfl, rfl, ?_⟩
  show (b.buf.set b.position c).take (b.position + 1) = b.buf.take b.position ++ [c]
  exact take_set_eq c (by omega)

/-- `appendString` on a terminator-free string that fits: the copy loop runs to
the end and appends the whole string. -/
theorem appendString_spec :
    ∀ (s : List Char) (b : JsonBuilder), BInv b → NUL ∉ s →
    b.position + s.length ≤ sizeM1 b.size →
    (appendString b s).size = b.size ∧
    (appendString b s).position = b.position + s.length ∧
    builtString (appendString b s) = builtString b ++ s := by
  intro s
  induction s with
  | nil =>
    intro b hb _ _
    exact ⟨rfl, rfl, by simp [appendString]⟩
  | cons c rest ih =>
    intro b hb hn hsp
    have hc : ¬c = NUL := by
      intro h
      exact hn (h ▸ List.mem_cons_self c rest)
    have hlt : b.position < sizeM1 b.size := by
      have hlen : (c :: rest).length = rest.length + 1 := List.length_cons c rest
      omega
    have hac := appendChar_spec hb c hlt
    have hb2 := binv_appendChar hb c
    have hrec := ih (appendChar b c) hb2 (fun hm => hn (List.mem_cons_of_mem _ hm))
      (by rw [hac.1, hac.2.1]; have := List.length_cons c rest; omega)
    unfold appendString
    rw [if_neg hc, if_pos hlt]
    refine ⟨hrec.1.trans hac.1, ?_, ?_⟩
    · rw [hrec.2.1, hac.2.1, List.length_cons]
      omega
    · rw [hrec.2.2, hac.2.2, List.append_assoc, List.singleton_append]

/-- The fractional loop that fits appends exactly the digits of
`fracDigits`. -/
theorem fracLoop_spec :
    ∀ (n : Nat) (f : ℚ) (b : JsonBuilder), BInv b →
    b.position + n ≤ sizeM1 b.size →
    (fracLoop b f n).size = b.size ∧
    (fracLoop b f n).position = b.position + n ∧
    builtString (fracLoop b f n) = builtString b ++ fracDigits f n := by
  intro n
  induction n with
  | zero =>
    intro f b hb _
    exact ⟨rfl, rfl, by simp [fracLoop, fracDigits]⟩
  | succ m ih =>
    intro f b hb hsp
    have hlt : b.position < sizeM1 b.size := by omega
    have hac := appendChar_spec hb (Char.ofNat (48 + (⌊f * 10⌋ : ℤ).toNat)) hlt
    have hrec := ih (f * 10 - ⌊f * 10⌋) _ (binv_appendChar hb _)
      (by rw [hac.1, hac.2.1]; omega)
    unfold fracLoop
    rw [if_pos hlt]
    refine ⟨hrec.1.trans hac.1, ?_, ?_⟩
    · rw [hrec.2.1, hac.2.1]
      omega
    · rw [hrec.2.2, hac.2.2]
      rw [List.append_assoc, List.singleton_append]
      rfl

/-- The fractional loop always emits exactly the requested number of
digits. -/
theorem fracDigits_length : ∀ (n : Nat) (f : ℚ), (fracDigits f n).length = n := by
  intro n
  induction n with
  | zero => intro f; rfl
  | succ m ih =>
    intro f
    unfold fracDigits
    rw [List.length_cons, ih]

/-- After `endObject` the byte at the cursor is the `NUL` terminator. -/
theorem endObject_terminated {b : JsonBuilder} (h : BInv b) :
    (endObject b).buf.getD (endObject b).position 'x' = NUL := by
  have h2 := binv_appendChar h (Char.ofNat 125)
  obtain ⟨hl, hu, h1, hp, ho⟩ := h2
  unfold endObject
  rw [bufWrite_position]
  exact bufWrite_read NUL (by omega)

/-- The unsigned part of `appendFloat` on a finite value: integer digits, then
(for positive `decimals`) the decimal point and the fraction digits. -/
theorem appendFloat_core {b : JsonBuilder} (hb : BInv b) (q1 : ℚ) (decimals : Int)
    (hn : NUL ∉ (toString (⌊q1⌋ : ℤ)).data)
    (hsp : b.position + ((toString (⌊q1⌋ : ℤ)).data.length
        + (if 0 < decimals then 1 + decimals.toNat else 0)) ≤ sizeM1 b.size) :
    builtString (if 0 < decimals
        then fracLoop (appendChar (appendNumber b ⌊q1⌋) '.') (q1 - ⌊q1⌋) decimals.toNat
        else appendNumber b ⌊q1⌋)
      = builtString b ++ (toString (⌊q1⌋ : ℤ)).data
          ++ (if 0 < decimals then '.' :: fracDigits (q1 - ⌊q1⌋) decimals.toNat else []) := by
  by_cases hd : (0 : Int) < decimals
  · simp only [if_pos hd] at hsp ⊢
    have hnum := appendString_spec (toString (⌊q1⌋ : ℤ)).data b hb hn (by omega)
    have hbn : BInv (appendString b (toString (⌊q1⌋ : ℤ)).data) := binv_appendString hb _
    have hdot := appendChar_spec hbn '.' (by rw [hnum.1, hnum.2.1]; omega)
    have hbd : BInv (appendChar (appendString b (toString (⌊q1⌋ : ℤ)).data) '.') :=
      binv_appendChar hbn _
    have hfrac := fracLoop_spec decimals.toNat (q1 - ⌊q1⌋) _ hbd
      (by rw [hdot.1, hdot.2.1, hnum.1, hnum.2.1]; omega)
    show builtString (fracLoop (appendChar (appendString b (toString (⌊q1⌋ : ℤ)).data) '.')
        (q1 - ⌊q1⌋) decimals.toNat) = _
    rw [hfrac.2.2, hdot.2.2, hnum.2.2]
    rw [List.append_assoc, List.append_assoc, List.singleton_append]
    exact (List.append_assoc _ _ _).symm
  · simp only [if_neg hd] at hsp ⊢
    have hnum := appendString_spec (toString (⌊q1⌋ : ℤ)).data b hb hn (by omega)
    show builtString (appendString b (toString (⌊q1⌋ : ℤ)).data) = _
    rw [hnum.2.2, List.append_nil]

/-- C4 (corrected).  For every finite sequence of builder calls on a
caller-supplied buffer of positive `size_t` length, no write ever lands
outside the buffer (the out-of-bounds flag stays clear and the cursor stays
strictly below the size), after `endObject` the byte at the cursor is the
`NUL` terminator, and a field whose `hasSpace` estimate fails is silently
dropped with the builder left completely unchanged.  (The original claim
fails on two counts recorded separately: a zero-length buffer defeats the
`_position < _size - 1` guard by `size_t` underflow, and a field admitted by
the estimate but truncated mid-field leaves unbalanced output.) -/
theorem builder_buffer_safety (ops : List BOp) (buffer : List Char)
    (h1 : 1 ≤ buffer.length) (h2 : buffer.length < USIZE_MOD) :
    (applyBOps ops (mkBuilder buffer)).oob = false ∧
    (applyBOps ops (mkBuilder buffer)).buf.length = (applyBOps ops (mkBuilder buffer)).size ∧
    (applyBOps ops (mkBuilder buffer)).position + 1 ≤ (applyBOps ops (mkBuilder buffer)).size ∧
    (endObject (applyBOps ops (mkBuilder buffer))).buf.getD
        (endObject (applyBOps ops (mkBuilder buffer))).position 'x' = NUL ∧
    ∀ key value : List Char,
      ¬hasSpace (applyBOps ops (mkBuilder buffer)) (key.length + value.length + 10) →
      addString (applyBOps ops (mkBuilder buffer)) key value
        = applyBOps ops (mkBuilder buffer) := by
  have hb := binv_applyBOps ops (mkBuilder buffer) (binv_mkBuilder h1 h2)
  obtain ⟨hl, hu, hs1, hp, ho⟩ := hb
  refine ⟨ho, hl, hp, endObject_terminated ⟨hl, hu, hs1, hp, ho⟩, ?_⟩
  intro key value hns
  unfold addString
  rw [if_pos hns]

theorem builder_buffer_safety_witness :
    1 ≤ (List.replicate 32 ' ').length ∧ (List.replicate 32 ' ').length < USIZE_MOD ∧
    ((applyBOps [BOp.start, BOp.str "k".data "v".data, BOp.finish]
        (mkBuilder (List.replicate 32 ' '))).oob = false ∧
     (applyBOps [BOp.start, BOp.str "k".data "v".data, BOp.finish]
        (mkBuilder (List.replicate 32 ' '))).buf.length
       = (applyBOps [BOp.start, BOp.str "k".data "v".data, BOp.finish]
        (mkBuilder (List.replicate 32 ' '))).size ∧
     (applyBOps [BOp.start, BOp.str "k".data "v".data, BOp.finish]
        (mkBuilder (List.replicate 32 ' '))).position + 1
       ≤ (applyBOps [BOp.start, BOp.str "k".data "v".data, BOp.finish]
        (mkBuilder (List.replicate 32 ' '))).size ∧
     (endObject (applyBOps [BOp.start, BOp.str "k".data "v".data, BOp.finish]
        (mkBuilder (List.replicate 32 ' ')))).buf.getD
        (endObject (applyBOps [BOp.start, BOp.str "k".data "v".data, BOp.finish]
          (mkBuilder (List.replicate 32 ' ')))).position 'x' = NUL ∧
     ∀ key value : List Char,
       ¬hasSpace (applyBOps [BOp.start, BOp.str "k".data "v".data, BOp.finish]
          (mkBuilder (List.replicate 32 ' '))) (key.length + value.length + 10) →
       addString (applyBOps [BOp.start, BOp.str "k".data "v".data, BOp.finish]
          (mkBuilder (List.replicate 32 ' '))) key value
         = applyBOps [BOp.start, BOp.str "k".data "v".data, BOp.finish]
            (mkBuilder (List.replicate 32 ' '))) :=
  ⟨by decide, by decide,
   builder_buffer_safety [BOp.start, BOp.str "k".data "v".data, BOp.finish]
     (List.replicate 32 ' ') (by decide) (by decide)⟩

/-- C9.  For every builder state with room for the encoded value and every
decimal count, `appendFloat` (reached from `addFloat`/`addDouble`) appends
exactly the value text `encFloat`: a NaN is the literal `null`, positive
infinity is `9999999`, negative infinity is `-9999999` (never `Infinity`),
and a finite value is sign, integer digits, then -- for positive `decimals`
-- a point followed by exactly `decimals` fraction digits. -/
theorem appendFloat_encoding {b : JsonBuilder} (hb : BInv b) (v : PFloat) (decimals : Int)
    (hsp : b.position + (encFloat v decimals).length ≤ sizeM1 b.size)
    (hn : NUL ∉ encFloat v decimals) :
    builtString (appendFloat b v decimals) = builtString b ++ encFloat v decimals ∧
    encFloat PFloat.nan decimals = "null".data ∧
    encFloat (PFloat.inf false) decimals = "9999999".data ∧
    encFloat (PFloat.inf true) decimals = "-9999999".data ∧
    ∀ (q : ℚ) (n : Nat), (fracDigits q n).length = n := by
  refine ⟨?_, rfl, rfl, rfl, fun q n => fracDigits_length n q⟩
  have htl : ∀ f : ℚ,
      (if 0 < decimals then '.' :: fracDigits f decimals.toNat else []).length
        = (if 0 < decimals then 1 + decimals.toNat else 0) := by
    intro f
    by_cases hd : (0 : Int) < decimals
    · simp [hd, fracDigits_length, Nat.add_comm]
    · simp [hd]
  cases v with
  | nan =>
    show builtString (appendString b "null".data) = builtString b ++ encFloat PFloat.nan decimals
    exact (appendString_spec "null".data b hb (by decide) hsp).2.2
  | inf neg =>
    cases neg with
    | false =>
      show builtString (appendString b "9999999".data)
          = builtString b ++ encFloat (PFloat.inf false) decimals
      exact (appendString_spec "9999999".data b hb (by decide) hsp).2.2
    | true =>
      show builtString (appendString b "-9999999".data)
          = builtString b ++ encFloat (PFloat.inf true) decimals
      exact (appendString_spec "-9999999".data b hb (by decide) hsp).2.2
  | finite q =>
    by_cases hq : q < 0
    · simp only [encFloat, appendFloat, if_pos hq] at hsp hn ⊢
      simp only [List.length_append, List.length_singleton] at hsp
      rw [htl (-q - ⌊-q⌋)] at hsp
      have hn2 : NUL ∉ (toString (⌊-q⌋ : ℤ)).data := fun hm =>
        hn (List.mem_append_left _ (List.mem_append_right _ hm))
      have hsign := appendChar_spec hb '-' (by omega)
      have core := appendFloat_core (binv_appendChar hb '-') (-q) decimals hn2
        (by rw [hsign.1, hsign.2.1]; omega)
      rw [core, hsign.2.2]
      simp [List.append_assoc]
    · simp only [encFloat, appendFloat, if_neg hq] at hsp hn ⊢
      simp only [List.length_append, List.length_nil] at hsp
      rw [htl (q - ⌊q⌋)] at hsp
      have hn2 : NUL ∉ (toString (⌊q⌋ : ℤ)).data := fun hm =>
        hn (List.mem_append_left _ (List.mem_append_right _ hm))
      have core := appendFloat_core hb q decimals hn2 (by omega)
      rw [core]
      simp [List.append_assoc]

theorem appendFloat_encoding_witness :
    BInv (mkBuilder (List.replicate 64 ' ')) ∧
    (mkBuilder (List.replicate 64 ' ')).position + (encFloat (PFloat.finite (5 / 4)) 2).length
      ≤ sizeM1 (mkBuilder (List.replicate 64 ' ')).size ∧
    NUL ∉ encFloat (PFloat.finite (5 / 4)) 2 ∧
    (builtString (appendFloat (mkBuilder (List.replicate 64 ' ')) (PFloat.finite (5 / 4)) 2)
        = builtString (mkBuilder (List.replicate 64 ' ')) ++ encFloat (PFloat.finite (5 / 4)) 2 ∧
     encFloat PFloat.nan 2 = "null".data ∧
     encFloat (PFloat.inf false) 2 = "9999999".data ∧
     encFloat (PFloat.inf true) 2 = "-9999999".data ∧
     ∀ (q : ℚ) (n : Nat), (fracDigits q n).length = n) :=
  ⟨by decide, by with_unfolding_all decide, by with_unfolding_all decide,
   appendFloat_encoding (by decide) (PFloat.finite (5 / 4)) 2
     (by with_unfolding_all decide) (by with_unfolding_all decide)⟩

end Paranode
